/-
Verification of the depot portfolio-accounting pipeline (depot.py).

This file gives a shallow embedding of the computational core of the
repository — the position builder (`shares_from_bookings`), the valuation
engine (`values_from_shares_and_prices`), the daily gain/loss calculator
(`gains_losses_before_fees_taxes_day`), the daily yield decomposition
(`yield_components_day`), the annual TWR compounding
(`yield_components_year`) and the year-by-instrument profitability table
(`profitability_year_table`) — and proves the stated properties about them.

Modelling conventions:
  * pandas DataFrames with a (multi-)index are modelled as association
    lists `List (key × value)`; joins are key lookups (the real data has
    unique keys; theorems that need this carry `Nodup` hypotheses).
  * IEEE-754 doubles are modelled by the type `F` below: `nan`, `inf`,
    `-inf` plus *exact* rational finite values.  All special-value
    behaviour relevant to the code (NaN propagation, `fillna`,
    `x > 0` comparisons being `False` for NaN, division producing
    infinities, `np.isinf`) is represented; rounding of finite values is
    not, since none of the verified properties depends on it.
  * Dates are `Date` records `(year, doy)` ordered lexicographically; for
    the position builder, whose only date operation is building the dense
    daily range `[min, end]`, serial day numbers (`Nat`) are used instead.
-/
import Mathlib

namespace Depot

/-! ## A model of IEEE-754 double values (exact rationals + specials) -/

/-- A floating-point value: NaN, ±infinity, or an (exact) finite rational. -/
inductive F : Type where
  | nan : F
  | inf : F
  | ninf : F
  | fin : ℚ → F
deriving DecidableEq, Repr

namespace F

/-- Float negation. -/
def neg : F → F
  | nan => nan
  | inf => ninf
  | ninf => inf
  | fin a => fin (-a)

/-- Float addition (NaN propagates, `inf + (-inf) = NaN`). -/
def add : F → F → F
  | nan, _ => nan
  | _, nan => nan
  | inf, ninf => nan
  | ninf, inf => nan
  | inf, _ => inf
  | _, inf => inf
  | ninf, _ => ninf
  | _, ninf => ninf
  | fin a, fin b => fin (a + b)

/-- Float subtraction. -/
def sub (a b : F) : F := add a (neg b)

/-- Float multiplication (NaN propagates, `inf * 0 = NaN`). -/
def mul : F → F → F
  | nan, _ => nan
  | _, nan => nan
  | inf, inf => inf
  | inf, ninf => ninf
  | ninf, inf => ninf
  | ninf, ninf => inf
  | inf, fin b => if 0 < b then inf else if b < 0 then ninf else nan
  | fin a, inf => if 0 < a then inf else if a < 0 then ninf else nan
  | ninf, fin b => if 0 < b then ninf else if b < 0 then inf else nan
  | fin a, ninf => if 0 < a then ninf else if a < 0 then inf else nan
  | fin a, fin b => fin (a * b)

/-- Float division (`x/0` gives ±inf for x ≠ 0, `0/0 = NaN`, `inf/inf = NaN`). -/
def div : F → F → F
  | nan, _ => nan
  | _, nan => nan
  | inf, inf => nan
  | inf, ninf => nan
  | ninf, inf => nan
  | ninf, ninf => nan
  | inf, fin b => if b < 0 then ninf else inf
  | ninf, fin b => if b < 0 then inf else ninf
  | fin _, inf => fin 0
  | fin _, ninf => fin 0
  | fin a, fin b =>
      if b = 0 then (if a = 0 then nan else if 0 < a then inf else ninf)
      else fin (a / b)

/-- Float absolute value. -/
def abs : F → F
  | nan => nan
  | inf => inf
  | ninf => inf
  | fin a => fin |a|

/-- Strict `<` comparison; any comparison involving NaN is `false`. -/
def blt : F → F → Bool
  | nan, _ => false
  | _, nan => false
  | inf, _ => false
  | ninf, ninf => false
  | ninf, _ => true
  | fin _, inf => true
  | fin _, ninf => false
  | fin a, fin b => decide (a < b)

/-- `np.isinf`. -/
def isinf : F → Bool
  | inf => true
  | ninf => true
  | _ => false

/-- `Series.fillna(0.0)` applied to a single cell. -/
def fillna0 : F → F
  | nan => fin 0
  | x => x

end F

/-! ## Dates and generic association-list lookup -/

/-- A calendar date: year plus ordinal day within the year, ordered
lexicographically.  `year` is what pandas' `.dt.year`/`.year` extracts. -/
structure Date : Type where
  year : ℕ
  doy : ℕ
deriving DecidableEq, Repr

/-- Date order (lexicographic), as a proposition. -/
def Date.le (a b : Date) : Prop :=
  a.year < b.year ∨ (a.year = b.year ∧ a.doy ≤ b.doy)

instance : DecidableRel Date.le := fun a b => by
  unfold Date.le; infer_instance

/-- Date order, boolean form. -/
def Date.ble (a b : Date) : Bool := decide (Date.le a b)

/-- Strict date order, boolean form. -/
def Date.blt (a b : Date) : Bool :=
  decide (a.year < b.year ∨ (a.year = b.year ∧ a.doy < b.doy))

/-- Binary maximum of two dates. -/
def dmax (a b : Date) : Date := if Date.ble a b then b else a

/-- First-match lookup in an association list (pandas label indexing for a
frame with unique index). -/
def alookup {α β : Type} [DecidableEq α] : List (α × β) → α → Option β
  | [], _ => none
  | (a, b) :: t, k => if a = k then some b else alookup t k

/-- `pandas.unique`: deduplicate keeping first occurrences, preserving order. -/
def uniqFirst {α : Type} [DecidableEq α] : List α → List α → List α
  | [], _ => []
  | a :: t, seen => if a ∈ seen then uniqFirst t seen else a :: uniqFirst t (a :: seen)

/-! ## Position builder: `shares_from_bookings` (depot.py:693–728) -/

/-- A booking/shares key: (serial day, wkn, bank). -/
abbrev BKey : Type := ℕ × String × String

/-- The clamp `where(delta ≥ 0.0001, 0)` applied to one cell: values below
the `1e-4` threshold (including genuinely negative ones) become exactly 0. -/
def clampShare (s : ℚ) : ℚ := if 1 / 10000 ≤ s then s else 0

/-- `groupby(['wkn','bank']).cumsum()`: running sum per (wkn, bank) group in
row order, carried by an accumulator of per-group partial sums. -/
def cumsumGroups : List (BKey × ℚ) → (String × String → ℚ) → List (BKey × ℚ)
  | [], _ => []
  | ((d, w, b), x) :: t, acc =>
      let s := acc (w, b) + x
      ((d, w, b), s) :: cumsumGroups t (fun g => if g = (w, b) then s else acc g)

/-- Earliest booking date, `bookings.index.get_level_values('date').min()`. -/
def minBookingDate (bookings : List (BKey × ℚ)) : ℕ :=
  match bookings.map (fun r => r.1.1) with
  | [] => 0
  | d :: t => t.foldl Nat.min d

/-- The dense date range `pd.date_range(min, end_date)` as serial days. -/
def allBookingDates (bookings : List (BKey × ℚ)) (end_date : ℕ) : List ℕ :=
  List.range' (minBookingDate bookings) (end_date + 1 - minBookingDate bookings)

/-- All (wkn, bank) combinations `from_product([wkns, banks])`. -/
def bookingPairs (bookings : List (BKey × ℚ)) : List (String × String) :=
  (uniqFirst (bookings.map (fun r => r.1.2.1)) []).flatMap
    (fun w => (uniqFirst (bookings.map (fun r => r.1.2.2)) []).map (fun b => (w, b)))

/-- The dense full index `from_product([all_dates, wkns, banks])`. -/
def fullBookingIndex (bookings : List (BKey × ℚ)) (end_date : ℕ) : List BKey :=
  (allBookingDates bookings end_date).flatMap
    (fun d => (bookingPairs bookings).map (fun p => (d, p)))

/-- Result of the position builder: the renamed column plus the rows. -/
structure SharesTable : Type where
  colName : String
  rows : List (BKey × ℚ)
deriving DecidableEq, Repr

/-- `bookings.reindex(full_index).fillna(0)`: the dense table with missing
combinations filled with zero. -/
def expandedBookings (bookings : List (BKey × ℚ)) (end_date : ℕ) : List (BKey × ℚ) :=
  (fullBookingIndex bookings end_date).map
    (fun k => (k, ((alookup bookings k).getD 0 : ℚ)))

/-- `shares_from_bookings` (depot.py:693–728): reindex the bookings over the
dense (date, wkn, bank) product filling gaps with 0, take the running sum
per (wkn, bank), zero everything below `1e-4`, and rename the column
`delta` to `share`. -/
def shares_from_bookings (bookings : List (BKey × ℚ)) (end_date : ℕ) : SharesTable :=
  ⟨"share",
   (cumsumGroups (expandedBookings bookings end_date) (fun _ => 0)).map
     (fun r => (r.1, clampShare r.2))⟩

/-! ## Valuation engine: `values_from_shares_and_prices` (depot.py:731–755) -/

/-- `values_from_shares_and_prices`: broadcast prices over accounts and
multiply with shares, index-aligned on the shares frame.  A (date, wkn) key
with no price row aligns to NaN (the reindexed price frame either holds NaN
there or lacks the key entirely), so the product `share * price` is NaN. -/
def values_from_shares_and_prices (shares : List (BKey × ℚ))
    (prices : List ((ℕ × String) × ℚ)) : List (BKey × F) :=
  shares.map (fun r =>
    (r.1, F.mul (F.fin r.2)
      (match alookup prices (r.1.1, r.1.2.1) with
       | some p => F.fin p
       | none => F.nan)))

/-! ## Gain/loss calculator: `gains_losses_before_fees_taxes_day`
(depot.py:779–821) -/

/-- A (date, wkn) key. -/
abbrev DKey : Type := Date × String

/-- Row order used by `sort_index` on a (date, wkn) frame, restricted to
the date component.  The index sort is lexicographic in (date, wkn); keys
are unique, so the rows of one wkn carry distinct dates and their relative
order — the only thing `groupby('wkn').shift(1)` depends on — is the date
order, which this (stable) sort reproduces. -/
def rowDateLe (a b : DKey × F) : Prop := Date.le a.1.1 b.1.1

instance : DecidableRel rowDateLe := fun a b => by
  unfold rowDateLe Date.le; infer_instance

instance : IsTotal (DKey × F) rowDateLe :=
  ⟨by intro a b; unfold rowDateLe Date.le; omega⟩

instance : IsTrans (DKey × F) rowDateLe :=
  ⟨by intro a b c hab hbc; unfold rowDateLe Date.le at *; omega⟩

/-- `groupby(level='wkn').shift(1)` on the date-sorted values frame: each
row is annotated with the value of the most recent preceding row of the
same wkn (NaN when there is none), scanning with an accumulator of the
last-seen value per wkn. -/
def shiftPrev : List (DKey × F) → List (String × F) → List (DKey × (F × F))
  | [], _ => []
  | (k, v) :: t, seen =>
      (k, (v, (alookup seen k.2).getD F.nan)) :: shiftPrev t ((k.2, v) :: seen)

/-- The outer-join key set of the daily gain/loss computation. -/
def gldKeys (values txs : List (DKey × F)) : List DKey :=
  ((values.insertionSort rowDateLe).map Prod.fst ++ txs.map Prod.fst).dedup

/-- `gains_losses_before_fees_taxes_day`: sort the values by index, compute
yesterday's value per wkn by a group shift, outer-join today's value,
yesterday's value and today's transaction value, fill missing entries with
0 and apply `gains = value_today - value_yesterday + transaction_today`. -/
def gains_losses_before_fees_taxes_day (values txs : List (DKey × F)) : List (DKey × F) :=
  (gldKeys values txs).map (fun k =>
    (k, F.add
      (F.sub (F.fillna0 ((alookup (values.insertionSort rowDateLe) k).getD F.nan))
        (F.fillna0 (((alookup (shiftPrev (values.insertionSort rowDateLe) []) k).map
          Prod.snd).getD F.nan)))
      (F.fillna0 ((alookup txs k).getD F.nan))))

/-- The dates of observations of instrument `w` strictly before `d`. -/
def prevCandDates (values : List (DKey × F)) (d : Date) (w : String) : List Date :=
  (values.filter (fun r => decide (r.1.2 = w) && Date.blt r.1.1 d)).map (fun r => r.1.1)

/-- The value of instrument `w` at its latest observation strictly before
`d` (NaN when there is none — the shift's "first observation" case). -/
def prevValueSpec (values : List (DKey × F)) (d : Date) (w : String) : F :=
  match prevCandDates values d w with
  | [] => F.nan
  | d0 :: ds => (alookup values (ds.foldl dmax d0, w)).getD F.nan

/-! ## Daily yield decomposition: `yield_components_day` (depot.py:1105–1253) -/

/-- The five yield columns of one output row. -/
structure DayYields : Type where
  price : F
  dividends : F
  fees : F
  taxes : F
  total : F
deriving DecidableEq, Repr

/-- Keep only non-cash rows:
`index.get_level_values('wkn').str.lower() != 'cash'`. -/
def noCashRow {β : Type} (r : DKey × β) : Bool := decide (r.1.2.toLower ≠ "cash")

/-- Left-join lookup followed by the `fillna(0.0)` applied to every
component column (a key missing from the joined frame yields NaN, which the
fill turns into 0; a stored NaN is likewise filled). -/
def joinFillF (df : List (DKey × F)) (k : DKey) : F :=
  F.fillna0 ((alookup df k).getD F.nan)

/-- Denominator selection (depot.py:1199–1210): when
`|transaction| > value * 0.5` and `|transaction| > 0`, the absolute
transaction value replaces the position value as denominator. -/
def dayDenominator (v tr : F) : F :=
  if F.blt (F.mul v (F.fin (1 / 2))) (F.abs tr) && F.blt (F.fin 0) (F.abs tr) then
    F.abs tr
  else v

/-- The mask `valid_denominator_mask = (denominator > 0) & (value > 0)`. -/
def dayValid (v tr : F) : Bool :=
  F.blt (F.fin 0) (dayDenominator v tr) && F.blt (F.fin 0) v

/-- One row of the daily yield decomposition (depot.py:1190–1232): the four
components are initialised to 0.0 and computed with the shared denominator
only where the denominator and the position value are both strictly
positive; the total is the sum of the four components. -/
def dayRowYields (v g dv fe tx tr : F) : DayYields :=
  ⟨if dayValid v tr then F.div g (dayDenominator v tr) else F.fin 0,
   if dayValid v tr then F.div dv (dayDenominator v tr) else F.fin 0,
   if dayValid v tr then F.div fe (dayDenominator v tr) else F.fin 0,
   if dayValid v tr then F.div tx (dayDenominator v tr) else F.fin 0,
   F.add (F.add (F.add
       (if dayValid v tr then F.div g (dayDenominator v tr) else F.fin 0)
       (if dayValid v tr then F.div dv (dayDenominator v tr) else F.fin 0))
     (if dayValid v tr then F.div fe (dayDenominator v tr) else F.fin 0))
     (if dayValid v tr then F.div tx (dayDenominator v tr) else F.fin 0)⟩

/-- `np.isinf(...).any(axis=1)` for one row. -/
def DayYields.hasInf (y : DayYields) : Bool :=
  F.isinf y.price || F.isinf y.dividends || F.isinf y.fees || F.isinf y.taxes ||
    F.isinf y.total

/-- The computed daily yield rows: the non-cash valuation rows, each left-
joined (with fillna 0) against the non-cash component frames. -/
def dayComputedRows (values gains divs fees taxes trans : List (DKey × F)) :
    List (DKey × DayYields) :=
  (values.filter noCashRow).map (fun r =>
    (r.1, dayRowYields r.2
      (joinFillF (gains.filter noCashRow) r.1)
      (joinFillF (divs.filter noCashRow) r.1)
      (joinFillF (fees.filter noCashRow) r.1)
      (joinFillF (taxes.filter noCashRow) r.1)
      (joinFillF (trans.filter noCashRow) r.1)))

/-- `yield_components_day` (depot.py:1105–1253): validate the inputs,
compute the per-row yields, and fail hard when any resulting component is
infinite.  (The column-presence checks of the source are enforced here by
typing; `None` and empty-frame component inputs both behave as an
all-zero column, which the empty list represents.) -/
def yield_components_day (values gains divs fees taxes trans : List (DKey × F)) :
    Except String (List (DKey × DayYields)) :=
  if values.isEmpty then
    .error "values_day_df ist None oder leer - kann Rendite nicht berechnen"
  else if gains.isEmpty then
    .error "gains_losses_before_fees_taxes_df ist None oder leer - kann Kursrendite nicht berechnen"
  else if (dayComputedRows values gains divs fees taxes trans).any (fun r => r.2.hasInf) then
    .error "Einträge mit unendlichen Werten in Renditeberechnung - bitte Daten prüfen"
  else
    .ok (dayComputedRows values gains divs fees taxes trans)

/-! ## Annual compounding: `yield_components_year` (depot.py:1261–1352) -/

/-- One joined row: a daily yield row together with the day's value. -/
structure JRow : Type where
  date : Date
  wkn : String
  ys : DayYields
  v : F
deriving DecidableEq, Repr

/-- `yield_comp.join(values_day_df[['value']], how='inner')`. -/
def yearJoined (yc : List (DKey × DayYields)) (values : List (DKey × F)) : List JRow :=
  yc.filterMap (fun r => (alookup values r.1).map (fun v => ⟨r.1.1, r.1.2, r.2, v⟩))

/-- Keep only the days with strictly positive position value
(`yield_and_value['value'] > 0`; NaN compares false and is dropped). -/
def yearFiltered (yc : List (DKey × DayYields)) (values : List (DKey × F)) : List JRow :=
  (yearJoined yc values).filter (fun r => F.blt (F.fin 0) r.v)

/-- Last observed date of a (year, wkn) group
(`groupby(['year','wkn'])['date'].max()`). -/
def lastDateIn (rows : List JRow) (y : ℕ) (w : String) : Date :=
  match (rows.filter (fun r => decide (r.date.year = y ∧ r.wkn = w))).map (fun r => r.date) with
  | [] => ⟨0, 0⟩
  | d0 :: ds => ds.foldl dmax d0

/-- `np.prod(1 + series) - 1`: the time-weighted return of a daily series. -/
def twr (l : List F) : F :=
  F.sub (l.foldl (fun a r => F.mul a (F.add (F.fin 1) r)) (F.fin 1)) (F.fin 1)

/-- The five compounded annual yield columns. -/
structure AnnYields : Type where
  price : F
  dividends : F
  fees : F
  taxes : F
  total : F
deriving DecidableEq, Repr

/-- The merge step: each filtered row annotated with its (year, wkn)
group's last observed date (`merged` in the source). -/
def yearMerged (rows : List JRow) : List (JRow × Date) :=
  rows.map (fun r => (r, lastDateIn rows r.date.year r.wkn))

/-- The groupby keys `(last_date, wkn)`. -/
def yearKeys (rows : List JRow) : List DKey :=
  ((yearMerged rows).map (fun p => (p.2, p.1.wkn))).dedup

/-- One `(last_date, wkn)` group of merged rows. -/
def yearGroupOf (rows : List JRow) (k : DKey) : List (JRow × Date) :=
  (yearMerged rows).filter (fun p => decide (p.2 = k.1 ∧ p.1.wkn = k.2))

/-- Annotate each filtered row with its (year, wkn) group's last date, then
group by (last_date, wkn) and compound each component with the TWR rule. -/
def yearGrouped (rows : List JRow) : List (DKey × AnnYields) :=
  (yearKeys rows).map (fun k =>
    (k, ⟨twr ((yearGroupOf rows k).map (fun p => p.1.ys.price)),
         twr ((yearGroupOf rows k).map (fun p => p.1.ys.dividends)),
         twr ((yearGroupOf rows k).map (fun p => p.1.ys.fees)),
         twr ((yearGroupOf rows k).map (fun p => p.1.ys.taxes)),
         twr ((yearGroupOf rows k).map (fun p => p.1.ys.total))⟩))

/-- `yield_components_year` (depot.py:1261–1352): validate, inner-join the
daily yields with the daily values, keep only positive-value days, and
compound per (year, wkn) group keyed by the group's last observed date. -/
def yield_components_year (yc : List (DKey × DayYields)) (values : List (DKey × F)) :
    Except String (List (DKey × AnnYields)) :=
  if yc.isEmpty then .error "yield_components_day_df ist None oder leer"
  else if values.isEmpty then .error "values_day_df ist None oder leer"
  else if (yearFiltered yc values).isEmpty then
    .error "Keine Einträge mit positivem Bestand gefunden"
  else .ok (yearGrouped (yearFiltered yc values))

/-! ## Profitability table: `profitability_year_table` (depot.py:1354–1456) -/

/-- The profitability table: per-(year, wkn) rows (days held, annual yield)
plus the pivoted column labels `{wkn}_days`, `{wkn}_yield`. -/
structure ProfitOut : Type where
  rows : List (ℕ × String × ℕ × F)
  columns : List String
deriving DecidableEq, Repr

/-- The `combined` table of the profitability computation: per (year, wkn)
group of the cash-free positive-value days, the days held (row count) and
the compounded annual total yield. -/
def profitCombined (yc : List (DKey × DayYields)) (values : List (DKey × F)) :
    List (ℕ × String × ℕ × F) :=
  ((yearFiltered (yc.filter noCashRow) values).map (fun r => (r.date.year, r.wkn))).dedup.map
    (fun k =>
      (k.1, k.2,
       ((yearFiltered (yc.filter noCashRow) values).filter
          (fun r => decide (r.date.year = k.1 ∧ r.wkn = k.2))).length,
       twr (((yearFiltered (yc.filter noCashRow) values).filter
          (fun r => decide (r.date.year = k.1 ∧ r.wkn = k.2))).map (fun r => r.ys.total))))

/-- The pivoted column labels `{wkn}_days`, `{wkn}_yield`, wkns sorted. -/
def profitColumns (combined : List (ℕ × String × ℕ × F)) : List String :=
  (((combined.map (fun c => c.2.1)).dedup).insertionSort (fun a b => a ≤ b)).flatMap
    (fun w => [w ++ "_days", w ++ "_yield"])

/-- `profitability_year_table` (depot.py:1354–1456): exclude cash, keep only
positive-value days, count held days and compound `yield_total` per
(year, wkn), and emit a `{wkn}_days`/`{wkn}_yield` column pair per wkn in
sorted order. -/
def profitability_year_table (yc : List (DKey × DayYields)) (values : List (DKey × F)) :
    Except String ProfitOut :=
  if yc.isEmpty then .error "yield_components_day_df ist None oder leer"
  else if values.isEmpty then .error "values_day_df ist None oder leer"
  else if (yearFiltered (yc.filter noCashRow) values).isEmpty then
    .error "Keine Einträge mit positivem Bestand gefunden"
  else
    .ok ⟨profitCombined yc values, profitColumns (profitCombined yc values)⟩

/-! ### Evaluation lemmas for the float model on finite values -/

/-- Addition of finite floats. -/
lemma F.add_fin (a b : ℚ) : F.add (F.fin a) (F.fin b) = F.fin (a + b) := rfl

/-- Multiplication of finite floats. -/
lemma F.mul_fin (a b : ℚ) : F.mul (F.fin a) (F.fin b) = F.fin (a * b) := rfl

/-- Subtraction of finite floats. -/
lemma F.sub_fin (a b : ℚ) : F.sub (F.fin a) (F.fin b) = F.fin (a - b) := by
  show F.add (F.fin a) (F.fin (-b)) = _
  rw [F.add_fin]
  congr 1
  ring

/-- Absolute value of a finite float. -/
lemma F.abs_fin (a : ℚ) : F.abs (F.fin a) = F.fin |a| := rfl

/-- Comparison of finite floats. -/
lemma F.blt_fin (a b : ℚ) : F.blt (F.fin a) (F.fin b) = decide (a < b) := rfl

/-- Division of finite floats with a nonzero denominator. -/
lemma F.div_fin (a b : ℚ) (hb : b ≠ 0) : F.div (F.fin a) (F.fin b) = F.fin (a / b) := by
  show (if b = 0 then (if a = 0 then F.nan else if 0 < a then F.inf else F.ninf)
    else F.fin (a / b)) = F.fin (a / b)
  rw [if_neg hb]

/-- `fillna` leaves finite values unchanged. -/
lemma F.fillna0_fin (a : ℚ) : F.fillna0 (F.fin a) = F.fin a := rfl

/-! ### Lemmas about the position builder -/

/-- Membership in `uniqFirst`. -/
lemma mem_uniqFirst {α : Type} [DecidableEq α] :
    ∀ (l seen : List α) (a : α), a ∈ uniqFirst l seen ↔ a ∈ l ∧ a ∉ seen := by
  intro l
  induction l with
  | nil => simp [uniqFirst]
  | cons x t ih =>
      intro seen a
      by_cases hx : x ∈ seen
      · rw [uniqFirst, if_pos hx, ih, List.mem_cons]
        constructor
        · rintro ⟨h1, h2⟩; exact ⟨Or.inr h1, h2⟩
        · rintro ⟨h1 | h1, h2⟩
          · exact absurd (h1 ▸ hx) h2
          · exact ⟨h1, h2⟩
      · rw [uniqFirst, if_neg hx]
        by_cases hax : a = x
        · subst hax
          constructor
          · intro _; exact ⟨List.mem_cons_self _ _, hx⟩
          · intro _; exact List.mem_cons_self _ _
        · simp only [List.mem_cons, hax, false_or, ih, List.mem_cons]

/-- `uniqFirst` produces a duplicate-free list. -/
lemma nodup_uniqFirst {α : Type} [DecidableEq α] :
    ∀ (l seen : List α), (uniqFirst l seen).Nodup := by
  intro l
  induction l with
  | nil => intro seen; exact List.nodup_nil
  | cons x t ih =>
      intro seen
      by_cases hx : x ∈ seen
      · rw [uniqFirst, if_pos hx]; exact ih _
      · rw [uniqFirst, if_neg hx]
        refine List.Nodup.cons ?_ (ih _)
        intro hmem
        exact ((mem_uniqFirst t (x :: seen) x).mp hmem).2 (List.mem_cons_self _ _)

/-- The product of two duplicate-free lists is duplicate-free. -/
lemma nodup_prodList {A B : Type} [DecidableEq A] [DecidableEq B]
    {ws : List A} {bs : List B} (hw : ws.Nodup) (hb : bs.Nodup) :
    (ws.flatMap (fun w => bs.map (fun b => (w, b)))).Nodup := by
  induction ws with
  | nil => exact List.nodup_nil
  | cons w t ih =>
      rw [List.flatMap_cons, List.nodup_append]
      rw [List.nodup_cons] at hw
      refine ⟨hb.map (fun b1 b2 h => congrArg Prod.snd h), ih hw.2, ?_⟩
      intro p hp hp'
      simp only [List.mem_map] at hp
      obtain ⟨b, _, rfl⟩ := hp
      simp only [List.mem_flatMap, List.mem_map] at hp'
      obtain ⟨w', hw', b', _, heq⟩ := hp'
      have hww : w' = w := congrArg Prod.fst heq
      exact hw.1 (hww ▸ hw')

/-- In the date-major dense index, rows with equal (wkn, bank) appear in
strictly increasing date order. -/
lemma pairwise_dateMajor {pairs : List (String × String)} {dates : List ℕ}
    (hd : dates.Pairwise (· < ·)) (hp : pairs.Nodup) :
    (dates.flatMap (fun d => pairs.map (fun p => ((d, p) : BKey)))).Pairwise
      (fun a b => a.2 = b.2 → a.1 < b.1) := by
  induction dates with
  | nil => exact List.Pairwise.nil
  | cons d t ih =>
      rw [List.pairwise_cons] at hd
      rw [List.flatMap_cons, List.pairwise_append]
      refine ⟨?_, ih hd.2, ?_⟩
      · rw [List.pairwise_map]
        exact hp.imp (fun hne heq => absurd heq hne)
      · intro a ha b hb
        simp only [List.mem_map] at ha
        obtain ⟨p, _, rfl⟩ := ha
        simp only [List.mem_flatMap, List.mem_map] at hb
        obtain ⟨d', hd', p', _, rfl⟩ := hb
        intro _
        exact hd.1 d' hd'

/-- Closed form of the per-group running sum: when rows of each (wkn, bank)
group appear in strictly increasing date order, row `(k, x)` receives the
accumulator's start value of its group plus the sum of the group's values at
dates `≤ k.1`. -/
lemma cumsumGroups_eq :
    ∀ (l : List (BKey × ℚ)) (acc : String × String → ℚ),
    l.Pairwise (fun a b => a.1.2 = b.1.2 → a.1.1 < b.1.1) →
    cumsumGroups l acc = l.map (fun r =>
      (r.1, acc r.1.2 +
        ((l.filter (fun r' => decide (r'.1.2 = r.1.2) && decide (r'.1.1 ≤ r.1.1))).map
          (fun r' => r'.2)).sum))
  | [], _, _ => rfl
  | ((d, w, b), x) :: t, acc, h => by
      rw [List.pairwise_cons] at h
      obtain ⟨hhead, htail⟩ := h
      rw [List.map_cons]
      show ((d, w, b), acc (w, b) + x) :: cumsumGroups t _ = _
      have hheadrow : (List.filter
          (fun r' => decide (r'.1.2 = ((d, w, b), x).1.2) && decide (r'.1.1 ≤ ((d, w, b), x).1.1))
          (((d, w, b), x) :: t)) = [((d, w, b), x)] := by
        rw [List.filter_cons_of_pos (by simp)]
        rw [List.filter_eq_nil_iff.mpr]
        intro r hr hpred
        simp only [Bool.and_eq_true, decide_eq_true_eq] at hpred
        exact absurd hpred.2 (Nat.not_le.mpr (hhead r hr hpred.1.symm))
      rw [hheadrow]
      simp only [List.map_cons, List.map_nil, List.sum_cons, List.sum_nil]
      congr 1
      · simp
      · rw [cumsumGroups_eq t _ htail]
        refine List.map_congr_left ?_
        intro r hr
        by_cases hgrp : r.1.2 = (w, b)
        · have hlt : d < r.1.1 := hhead r hr hgrp.symm
          rw [List.filter_cons_of_pos
            (by simp only [Bool.and_eq_true, decide_eq_true_eq]
                exact ⟨hgrp.symm, Nat.le_of_lt hlt⟩)]
          simp only [List.map_cons, List.sum_cons, if_pos hgrp, hgrp, if_true]
          rw [← add_assoc]
        · rw [List.filter_cons_of_neg
            (by simp only [Bool.and_eq_true, decide_eq_true_eq, not_and]
                intro hq
                exact absurd hq.symm hgrp)]
          rw [if_neg hgrp]

/-- `cumsumGroups` keeps the keys of its input unchanged. -/
lemma cumsumGroups_keys :
    ∀ (l : List (BKey × ℚ)) (acc : String × String → ℚ),
      (cumsumGroups l acc).map Prod.fst = l.map Prod.fst
  | [], _ => rfl
  | ((d, w, b), x) :: t, acc => by
      show (d, w, b) :: (cumsumGroups t _).map Prod.fst = (d, w, b) :: t.map Prod.fst
      rw [cumsumGroups_keys t _]

/-- A fold of `Nat.min` is bounded by its starting value. -/
lemma foldl_min_le_init : ∀ (t : List ℕ) (i : ℕ), t.foldl Nat.min i ≤ i
  | [], _ => Nat.le_refl _
  | a :: t, i => Nat.le_trans (foldl_min_le_init t (Nat.min i a)) (Nat.min_le_left i a)

/-- A fold of `Nat.min` is a lower bound for all inputs. -/
lemma foldl_min_le : ∀ (t : List ℕ) (i x : ℕ), x ∈ i :: t → t.foldl Nat.min i ≤ x := by
  intro t
  induction t with
  | nil =>
      intro i x hx
      rw [List.mem_singleton] at hx
      exact hx ▸ Nat.le_refl i
  | cons a t ih =>
      intro i x hx
      rcases List.mem_cons.mp hx with rfl | hx'
      · exact Nat.le_trans (foldl_min_le_init t (Nat.min x a)) (Nat.min_le_left x a)
      · rcases List.mem_cons.mp hx' with rfl | hx''
        · exact Nat.le_trans (foldl_min_le_init t (Nat.min i x)) (Nat.min_le_right i x)
        · exact ih (Nat.min i a) x (List.mem_cons_of_mem _ hx'')

/-- The earliest booking date is a lower bound for all bookings' dates. -/
lemma minBookingDate_le {bookings : List (BKey × ℚ)} {r : BKey × ℚ} (hr : r ∈ bookings) :
    minBookingDate bookings ≤ r.1.1 := by
  unfold minBookingDate
  have hmem : r.1.1 ∈ bookings.map (fun r => r.1.1) := List.mem_map_of_mem _ hr
  revert hmem
  cases h : bookings.map (fun r => r.1.1) with
  | nil => intro hmem; cases hmem
  | cons d t => intro hmem; exact foldl_min_le t d r.1.1 hmem

/-- Sum of a filter by a disjunction of pointwise-disjoint predicates. -/
lemma sum_filter_or {α : Type} (p q : α → Bool) (f : α → ℚ) :
    ∀ (l : List α), (∀ r ∈ l, ¬(p r = true ∧ q r = true)) →
    ((l.filter (fun r => p r || q r)).map f).sum
      = ((l.filter p).map f).sum + ((l.filter q).map f).sum
  | [], _ => by simp
  | x :: t, hdisj => by
      have ht : ∀ r ∈ t, ¬(p r = true ∧ q r = true) :=
        fun r hr => hdisj r (List.mem_cons_of_mem _ hr)
      have ih := sum_filter_or p q f t ht
      cases hp : p x with
      | true =>
          have hq : q x = false := by
            cases hq : q x with
            | true => exact absurd ⟨hp, hq⟩ (hdisj x (List.mem_cons_self _ _))
            | false => rfl
          rw [List.filter_cons_of_pos (by rw [hp, Bool.true_or]),
              List.filter_cons_of_pos hp, List.filter_cons_of_neg (by rw [hq]; exact Bool.false_ne_true)]
          simp only [List.map_cons, List.sum_cons, ih, add_assoc]
      | false =>
          cases hq : q x with
          | true =>
              rw [List.filter_cons_of_pos (by rw [hp, hq, Bool.false_or]),
                  List.filter_cons_of_neg (by rw [hp]; exact Bool.false_ne_true),
                  List.filter_cons_of_pos hq]
              simp only [List.map_cons, List.sum_cons, ih]
              ring
          | false =>
              rw [List.filter_cons_of_neg (by rw [hp, hq]; simp),
                  List.filter_cons_of_neg (by rw [hp]; exact Bool.false_ne_true),
                  List.filter_cons_of_neg (by rw [hq]; exact Bool.false_ne_true)]
              exact ih

/-- With duplicate-free keys, summing the values of all rows with key `k`
gives the lookup at `k` (or 0 when absent). -/
lemma lookup_filter_sum {α : Type} [DecidableEq α] :
    ∀ (l : List (α × ℚ)) (k : α), (l.map Prod.fst).Nodup →
    ((l.filter (fun r => decide (r.1 = k))).map (fun r => r.2)).sum
      = ((alookup l k).getD 0 : ℚ)
  | [], k, _ => rfl
  | (a, v) :: t, k, hnd => by
      rw [List.map_cons, List.nodup_cons] at hnd
      by_cases hak : a = k
      · subst hak
        rw [List.filter_cons_of_pos (by simp)]
        have ht : t.filter (fun r => decide (r.1 = a)) = [] := by
          rw [List.filter_eq_nil_iff]
          intro r hr hpred
          rw [decide_eq_true_eq] at hpred
          have hmem : r.1 ∈ t.map Prod.fst := List.mem_map_of_mem Prod.fst hr
          rw [hpred] at hmem
          exact hnd.1 hmem
        rw [ht]
        show v + 0 = ((if a = a then some v else alookup t a).getD 0 : ℚ)
        rw [if_pos rfl, add_zero]
        rfl
      · rw [List.filter_cons_of_neg (by simpa using hak)]
        show _ = ((if a = k then some v else alookup t k).getD 0 : ℚ)
        rw [if_neg hak]
        exact lookup_filter_sum t k hnd.2

/-- Summing dense per-date lookups over a duplicate-free date list equals
summing the matching original rows. -/
lemma sum_over_dates (w b : String) (l : List (BKey × ℚ)) (hl : (l.map Prod.fst).Nodup) :
    ∀ (D : List ℕ), D.Nodup →
    (D.map (fun d => ((alookup l (d, w, b)).getD 0 : ℚ))).sum
      = ((l.filter (fun r => decide (r.1.2 = (w, b)) && decide (r.1.1 ∈ D))).map
          (fun r => r.2)).sum
  | [], _ => by simp
  | d :: D', hD => by
      rw [List.nodup_cons] at hD
      have ih := sum_over_dates w b l hl D' hD.2
      have hsplit :
          (l.filter (fun r => decide (r.1.2 = (w, b)) && decide (r.1.1 ∈ d :: D'))) =
          (l.filter (fun r =>
            (decide (r.1.2 = (w, b)) && decide (r.1.1 = d)) ||
            (decide (r.1.2 = (w, b)) && decide (r.1.1 ∈ D')))) := by
        refine List.filter_congr ?_
        intro r _
        rcases Decidable.em (r.1.2 = (w, b)) with hg | hg
        · simp [hg, List.mem_cons]
        · simp [hg]
      rw [List.map_cons, List.sum_cons, hsplit,
          sum_filter_or _ _ _ l (by
            intro r _ hboth
            obtain ⟨h1, h2⟩ := hboth
            rw [Bool.and_eq_true, decide_eq_true_eq, decide_eq_true_eq] at h1 h2
            exact hD.1 (h1.2 ▸ h2.2)),
          ih]
      congr 1
      have : (l.filter (fun r => decide (r.1.2 = (w, b)) && decide (r.1.1 = d))) =
          (l.filter (fun r => decide (r.1 = (d, w, b)))) := by
        refine List.filter_congr ?_
        intro r _
        rcases Decidable.em (r.1 = (d, w, b)) with he | he
        · simp [he]
        · have : ¬(r.1.2 = (w, b) ∧ r.1.1 = d) := by
            intro hc
            exact he (Prod.ext hc.2 hc.1)
          rcases Decidable.not_and_iff_or_not_not.mp this with hc | hc <;> simp [hc, he]
      rw [this, lookup_filter_sum l (d, w, b) hl]

/-- Filtering a duplicate-free list for one element yields exactly it. -/
lemma filter_eq_singleton_of_nodup {α : Type} [DecidableEq α] :
    ∀ (l : List α) (x : α), l.Nodup → x ∈ l → l.filter (fun y => decide (y = x)) = [x]
  | [], x, _, hx => absurd hx (List.not_mem_nil x)
  | a :: t, x, hnd, hx => by
      rw [List.nodup_cons] at hnd
      by_cases hax : a = x
      · subst hax
        rw [List.filter_cons_of_pos (by simp)]
        have ht : t.filter (fun y => decide (y = a)) = [] := by
          rw [List.filter_eq_nil_iff]
          intro y hy hpred
          rw [decide_eq_true_eq] at hpred
          exact hnd.1 (hpred ▸ hy)
        rw [ht]
      · rcases List.mem_cons.mp hx with rfl | hx'
        · exact absurd rfl hax
        · rw [List.filter_cons_of_neg (by simpa using hax)]
          exact filter_eq_singleton_of_nodup t x hnd.2 hx'

/-- A flatMap of conditional singletons is a map of the filter. -/
lemma flatMap_if_singleton {α β : Type} (f : α → β) (p : α → Bool) :
    ∀ (D : List α), (D.flatMap (fun d => if p d then [f d] else [])) = (D.filter p).map f
  | [] => rfl
  | d :: t => by
      rw [List.flatMap_cons]
      cases hp : p d with
      | true =>
          rw [List.filter_cons_of_pos hp, List.map_cons, if_pos rfl,
              flatMap_if_singleton f p t]
          rfl
      | false =>
          rw [List.filter_cons_of_neg (by rw [hp]; exact Bool.false_ne_true),
              if_neg Bool.false_ne_true, flatMap_if_singleton f p t]
          rfl

/-- The (wkn, bank) pairs of the dense index are duplicate-free. -/
lemma nodup_bookingPairs (bookings : List (BKey × ℚ)) : (bookingPairs bookings).Nodup :=
  nodup_prodList (nodup_uniqFirst _ _) (nodup_uniqFirst _ _)

/-- Filtering the dense index for a fixed (wkn, bank) pair and a date bound
collapses to the matching dates paired with that key. -/
lemma fullIndex_filter (bookings : List (BKey × ℚ)) (end_date : ℕ) (k : BKey)
    (hk : k.2 ∈ bookingPairs bookings) :
    (fullBookingIndex bookings end_date).filter
        (fun k' => decide (k'.2 = k.2) && decide (k'.1 ≤ k.1))
      = ((allBookingDates bookings end_date).filter (fun d => decide (d ≤ k.1))).map
          (fun d => ((d, k.2) : BKey)) := by
  unfold fullBookingIndex
  rw [List.filter_flatMap]
  have hinner : ∀ d : ℕ,
      ((bookingPairs bookings).map (fun p => ((d, p) : BKey))).filter
          (fun k' => decide (k'.2 = k.2) && decide (k'.1 ≤ k.1))
        = if decide (d ≤ k.1) = true then [((d, k.2) : BKey)] else [] := by
    intro d
    rw [List.filter_map]
    by_cases hd : d ≤ k.1
    · have hpred : ((bookingPairs bookings).filter
          ((fun k' => decide (k'.2 = k.2) && decide (k'.1 ≤ k.1)) ∘ (fun p => ((d, p) : BKey))))
          = (bookingPairs bookings).filter (fun p => decide (p = k.2)) := by
        refine List.filter_congr ?_
        intro p _
        simp [Function.comp, hd]
      rw [hpred, filter_eq_singleton_of_nodup _ _ (nodup_bookingPairs bookings) hk,
          if_pos (by simpa using hd)]
      rfl
    · have hpred : ((bookingPairs bookings).filter
          ((fun k' => decide (k'.2 = k.2) && decide (k'.1 ≤ k.1)) ∘ (fun p => ((d, p) : BKey))))
          = [] := by
        rw [List.filter_eq_nil_iff]
        intro p _ hc
        simp only [Function.comp, Bool.and_eq_true, decide_eq_true_eq] at hc
        exact hd hc.2
      rw [hpred, if_neg (by simpa using hd)]
      rfl
  rw [funext hinner, flatMap_if_singleton]

/-- The dense filled table satisfies the per-group strict date order. -/
lemma pairwise_expandedBookings (bookings : List (BKey × ℚ)) (end_date : ℕ) :
    (expandedBookings bookings end_date).Pairwise
      (fun a b => a.1.2 = b.1.2 → a.1.1 < b.1.1) := by
  unfold expandedBookings fullBookingIndex
  rw [List.pairwise_map]
  exact pairwise_dateMajor (List.pairwise_lt_range' _ _) (nodup_bookingPairs bookings)

/-- Closed form of the position builder's rows: every dense-index key mapped
to the clamp of its group's cumulative sum of filled deltas. -/
lemma shares_rows_eq (bookings : List (BKey × ℚ)) (end_date : ℕ) :
    (shares_from_bookings bookings end_date).rows =
      (fullBookingIndex bookings end_date).map (fun k =>
        (k, clampShare
          ((((fullBookingIndex bookings end_date).filter
              (fun k' => decide (k'.2 = k.2) && decide (k'.1 ≤ k.1))).map
            (fun k' => ((alookup bookings k').getD 0 : ℚ))).sum))) := by
  show (cumsumGroups (expandedBookings bookings end_date) (fun _ => 0)).map
      (fun r => (r.1, clampShare r.2)) = _
  rw [cumsumGroups_eq _ _ (pairwise_expandedBookings bookings end_date), List.map_map]
  show (expandedBookings bookings end_date).map _ = _
  unfold expandedBookings
  rw [List.map_map]
  refine List.map_congr_left ?_
  intro k _
  simp only [Function.comp]
  rw [zero_add, List.filter_map, List.map_map]
  rfl

/-- Every row value produced by the position builder is a clamped value. -/
lemma shares_rows_clamped (bookings : List (BKey × ℚ)) (end_date : ℕ) :
    ∀ r ∈ (shares_from_bookings bookings end_date).rows, ∃ s : ℚ, r.2 = clampShare s := by
  intro r hr
  unfold shares_from_bookings at hr
  simp only [List.mem_map] at hr
  obtain ⟨a, _, rfl⟩ := hr
  exact ⟨a.2, rfl⟩

/-- **C7 (counterexample)**: the output column of the position builder is
named `share`, not `shares` as the claim states. -/
theorem c7_position_builder_counterexample :
    (shares_from_bookings [(((0 : ℕ), "A", "B"), (1 : ℚ))] 0).colName = "share" ∧
    (shares_from_bookings [(((0 : ℕ), "A", "B"), (1 : ℚ))] 0).colName ≠ "shares" :=
  ⟨rfl, by decide⟩

/-- **C7 (amended)**: given a bookings table with unique keys and an end
date, the position builder produces a dense daily table covering every date
in [min booking date, end date] paired with every (instrument, account)
pair observed in the bookings; each row's value is the cumulative sum of
the zero-filled deltas of its (instrument, account) group up to its date,
with sums below the absolute threshold 1e-4 replaced by exactly zero; and
the result column is renamed from `delta` to `share` (not `shares`). -/
theorem c7_position_builder (bookings : List (BKey × ℚ)) (end_date : ℕ)
    (hnd : (bookings.map Prod.fst).Nodup) :
    (shares_from_bookings bookings end_date).colName = "share" ∧
    (∀ r ∈ bookings, ∀ d : ℕ, minBookingDate bookings ≤ d → d ≤ end_date →
      ((d, r.1.2) : BKey) ∈ (shares_from_bookings bookings end_date).rows.map Prod.fst) ∧
    (∀ k q, (k, q) ∈ (shares_from_bookings bookings end_date).rows →
      q = clampShare (((bookings.filter
        (fun r => decide (r.1.2 = k.2) && decide (r.1.1 ≤ k.1))).map
          (fun r => r.2)).sum)) := by
  have hkeys : (shares_from_bookings bookings end_date).rows.map Prod.fst
      = fullBookingIndex bookings end_date := by
    rw [shares_rows_eq, List.map_map]
    exact List.map_id _
  refine ⟨rfl, ?_, ?_⟩
  · intro r hr d h1 h2
    rw [hkeys]
    unfold fullBookingIndex
    rw [List.mem_flatMap]
    refine ⟨d, ?_, ?_⟩
    · unfold allBookingDates
      rw [List.mem_range'_1]
      have hmin : minBookingDate bookings ≤ end_date + 1 :=
        Nat.le_trans (Nat.le_trans h1 h2) (Nat.le_succ _)
      rw [Nat.add_sub_cancel' hmin]
      exact ⟨h1, Nat.lt_succ_of_le h2⟩
    · have hpair : r.1.2 ∈ bookingPairs bookings := by
        unfold bookingPairs
        rw [List.mem_flatMap]
        refine ⟨r.1.2.1, ?_, ?_⟩
        · rw [mem_uniqFirst]
          exact ⟨List.mem_map_of_mem _ hr, List.not_mem_nil _⟩
        · rw [List.mem_map]
          refine ⟨r.1.2.2, ?_, rfl⟩
          rw [mem_uniqFirst]
          exact ⟨List.mem_map_of_mem _ hr, List.not_mem_nil _⟩
      exact List.mem_map_of_mem _ hpair
  · intro k q hmem
    rw [shares_rows_eq] at hmem
    obtain ⟨k', hk', heq⟩ := List.mem_map.mp hmem
    rw [Prod.mk.injEq] at heq
    obtain ⟨heqk, heqq⟩ := heq
    subst heqk
    rw [← heqq]
    unfold fullBookingIndex at hk'
    rw [List.mem_flatMap] at hk'
    obtain ⟨d0, hd0, hmem2⟩ := hk'
    rw [List.mem_map] at hmem2
    obtain ⟨p, hp, heq2⟩ := hmem2
    subst heq2
    rw [fullIndex_filter bookings end_date (d0, p) hp, List.map_map]
    have hD : ((allBookingDates bookings end_date).filter
        (fun d => decide (d ≤ d0))).Nodup := by
      unfold allBookingDates
      exact List.Nodup.filter _ (List.nodup_range' _ _)
    have hsum := sum_over_dates p.1 p.2 bookings hnd
      ((allBookingDates bookings end_date).filter (fun d => decide (d ≤ d0))) hD
    have hcomp : ((fun k' => ((alookup bookings k').getD 0 : ℚ)) ∘
        (fun d => ((d, ((d0, p) : BKey).2) : BKey)))
        = (fun d => ((alookup bookings (d, p.1, p.2)).getD 0 : ℚ)) := rfl
    rw [hcomp, hsum]
    congr 1
    congr 1
    congr 1
    refine List.filter_congr ?_
    intro r hr
    by_cases hg : r.1.2 = p
    · have hiff : (r.1.1 ∈ (allBookingDates bookings end_date).filter
          (fun d => decide (d ≤ d0))) ↔ r.1.1 ≤ d0 := by
        constructor
        · intro hin
          rw [List.mem_filter, decide_eq_true_eq] at hin
          exact hin.2
        · intro hle
          rw [List.mem_filter, decide_eq_true_eq]
          refine ⟨?_, hle⟩
          unfold allBookingDates at hd0 ⊢
          rw [List.mem_range'_1] at hd0 ⊢
          exact ⟨minBookingDate_le hr, Nat.lt_of_le_of_lt hle hd0.2⟩
      simp [hg, hiff]
    · simp [hg]

/-- Witness for C7: two bookings of the same instrument on consecutive days
cumulate (2 then 2+3=5), and the theorem's hypotheses hold for them. -/
theorem c7_position_builder_witness :
    ((([(((0 : ℕ), "A", "B"), (2 : ℚ)), (((1 : ℕ), "A", "B"), (3 : ℚ))] :
        List (BKey × ℚ)).map Prod.fst).Nodup) ∧
    ((5 : ℚ) = clampShare ((([(((0 : ℕ), "A", "B"), (2 : ℚ)), (((1 : ℕ), "A", "B"), (3 : ℚ))] :
        List (BKey × ℚ)).filter
          (fun r => decide (r.1.2 = (((1 : ℕ), "A", "B") : BKey).2) &&
            decide (r.1.1 ≤ (((1 : ℕ), "A", "B") : BKey).1))).map (fun r => r.2)).sum) :=
  ⟨by decide,
   (c7_position_builder
      [(((0 : ℕ), "A", "B"), (2 : ℚ)), (((1 : ℕ), "A", "B"), (3 : ℚ))] 1
      (by decide)).2.2 ((1 : ℕ), "A", "B") 5 (by with_unfolding_all decide)⟩

/-- **C10**: every `share` value in the position builder's output is either
exactly 0 or at least 0.0001; in particular it is never negative, because
any cumulative sum below the 1e-4 threshold (including a genuinely negative
running position) is replaced by exactly 0. -/
theorem c10_shares_never_negative (bookings : List (BKey × ℚ)) (end_date : ℕ) :
    ∀ r ∈ (shares_from_bookings bookings end_date).rows,
      (r.2 = 0 ∨ 1 / 10000 ≤ r.2) ∧ 0 ≤ r.2 := by
  intro r hr
  obtain ⟨s, hs⟩ := shares_rows_clamped bookings end_date r hr
  unfold clampShare at hs
  by_cases h : (1 : ℚ) / 10000 ≤ s
  · rw [hs, if_pos h]
    exact ⟨Or.inr h, le_trans (by norm_num) h⟩
  · rw [hs, if_neg h]
    exact ⟨Or.inl rfl, le_refl 0⟩

/-- Witness for C10: a booking of −5 shares produces the clamped value 0
(not −5) on the corresponding day, and the theorem applies to it. -/
theorem c10_shares_never_negative_witness :
    ((((0 : ℕ), "A", "B"), (0 : ℚ)) ∈ (shares_from_bookings [(((0 : ℕ), "A", "B"), -5)] 0).rows) ∧
    (((0 : ℚ) = 0 ∨ 1 / 10000 ≤ (0 : ℚ)) ∧ (0 : ℚ) ≤ 0) :=
  ⟨by with_unfolding_all decide,
   c10_shares_never_negative [(((0 : ℕ), "A", "B"), -5)] 0 (((0 : ℕ), "A", "B"), 0)
     (by with_unfolding_all decide)⟩

/-! ### Valuation engine: missing prices -/

/-- **C9**: in the valuation engine, a missing price for a (date, wkn)
combination makes the corresponding value NaN (undefined), never zero: the
shares row aligns with no price, multiplies with NaN, and stays NaN. -/
theorem c9_missing_price_nan (shares : List (BKey × ℚ))
    (prices : List ((ℕ × String) × ℚ)) (d : ℕ) (w b : String) (s : ℚ)
    (hmem : (((d, w, b) : BKey), s) ∈ shares)
    (hnone : alookup prices (d, w) = none) :
    ((((d, w, b) : BKey), F.nan) ∈ values_from_shares_and_prices shares prices) ∧
    F.nan ≠ F.fin 0 := by
  refine ⟨?_, by decide⟩
  unfold values_from_shares_and_prices
  refine List.mem_map.mpr ⟨((d, w, b), s), hmem, ?_⟩
  show ((d, w, b),
    F.mul (F.fin s) (match alookup prices (d, w) with
      | some p => F.fin p
      | none => F.nan)) = ((d, w, b), F.nan)
  rw [hnone]
  rfl

/-- Witness for C9: one share row whose (date, wkn) has no price row at all
produces the NaN value. -/
theorem c9_missing_price_nan_witness :
    (((((0 : ℕ), "A", "B") : BKey), F.nan) ∈
      values_from_shares_and_prices [(((0 : ℕ), "A", "B"), (2 : ℚ))] []) ∧
    F.nan ≠ F.fin 0 :=
  c9_missing_price_nan [(((0 : ℕ), "A", "B"), (2 : ℚ))] [] 0 "A" "B" 2
    (List.mem_singleton_self _) rfl

/-! ### Lemmas about the daily yield decomposition -/

/-- A successful run of `yield_components_day` returns exactly the computed
rows. -/
lemma yield_components_day_ok {values gains divs fees taxes trans : List (DKey × F)}
    {out : List (DKey × DayYields)}
    (hok : yield_components_day values gains divs fees taxes trans = .ok out) :
    out = dayComputedRows values gains divs fees taxes trans := by
  unfold yield_components_day at hok
  by_cases h1 : values.isEmpty
  · rw [if_pos h1] at hok; exact Except.noConfusion hok
  · rw [if_neg h1] at hok
    by_cases h2 : gains.isEmpty
    · rw [if_pos h2] at hok; exact Except.noConfusion hok
    · rw [if_neg h2] at hok
      by_cases h3 : (dayComputedRows values gains divs fees taxes trans).any
          (fun r => r.2.hasInf)
      · rw [if_pos h3] at hok; exact Except.noConfusion hok
      · rw [if_neg h3] at hok
        exact (Except.ok.inj hok).symm

/-- In each computed row, the total is by construction the sum of the four
components. -/
lemma dayRowYields_total (v g dv fe tx tr : F) :
    (dayRowYields v g dv fe tx tr).total =
      F.add (F.add (F.add (dayRowYields v g dv fe tx tr).price
        (dayRowYields v g dv fe tx tr).dividends) (dayRowYields v g dv fe tx tr).fees)
        (dayRowYields v g dv fe tx tr).taxes := rfl

/-- With duplicate-free keys a key determines its row value. -/
lemma mem_unique_of_nodup_keys {α β : Type} [DecidableEq α] :
    ∀ {l : List (α × β)}, (l.map Prod.fst).Nodup →
    ∀ {k : α} {a b : β}, (k, a) ∈ l → (k, b) ∈ l → a = b := by
  intro l
  induction l with
  | nil => intro _ k a b ha; cases ha
  | cons x t ih =>
      intro hnd k a b ha hb
      rw [List.map_cons, List.nodup_cons] at hnd
      rcases List.mem_cons.mp ha with rfl | ha'
      · rcases List.mem_cons.mp hb with hb0 | hb'
        · exact (Prod.mk.inj hb0.symm).2
        · exact absurd (List.mem_map_of_mem Prod.fst hb') (by simpa using hnd.1)
      · rcases List.mem_cons.mp hb with rfl | hb'
        · exact absurd (List.mem_map_of_mem Prod.fst ha') (by simpa using hnd.1)
        · exact ih hnd.2 ha' hb'

/-- A row with zero position value or zero selected denominator yields the
all-zero components. -/
lemma dayRowYields_zero (v g dv fe tx tr : F)
    (h : v = F.fin 0 ∨ dayDenominator v tr = F.fin 0) :
    dayRowYields v g dv fe tx tr = ⟨F.fin 0, F.fin 0, F.fin 0, F.fin 0, F.fin 0⟩ := by
  have hz : F.blt (F.fin 0) (F.fin 0) = false := by
    rw [F.blt_fin, decide_eq_false_iff_not]
    exact lt_irrefl 0
  have hvalid : dayValid v tr = false := by
    unfold dayValid
    rcases h with h | h
    · rw [h, hz, Bool.and_false]
    · rw [h, hz, Bool.false_and]
  unfold dayRowYields
  rw [hvalid]
  simp only [Bool.false_eq_true, if_false]
  rw [F.add_fin, F.add_fin, F.add_fin]
  norm_num

/-- **C1**: when `|transaction| > 0.5 * value` and `|transaction| > 0`, the
absolute transaction value is selected as the denominator of the row, and
(for a row with positive position value, where yields are computed at all)
all four component yields divide by it instead of by the value. -/
theorem c1_denominator_switch (v tr : F)
    (h1 : F.blt (F.mul v (F.fin (1 / 2))) (F.abs tr) = true)
    (h2 : F.blt (F.fin 0) (F.abs tr) = true) :
    dayDenominator v tr = F.abs tr ∧
    (∀ g dv fe tx : F, F.blt (F.fin 0) v = true →
      dayRowYields v g dv fe tx tr =
        ⟨F.div g (F.abs tr), F.div dv (F.abs tr), F.div fe (F.abs tr), F.div tx (F.abs tr),
         F.add (F.add (F.add (F.div g (F.abs tr)) (F.div dv (F.abs tr)))
           (F.div fe (F.abs tr))) (F.div tx (F.abs tr))⟩) := by
  have hden : dayDenominator v tr = F.abs tr := by
    unfold dayDenominator
    rw [h1, h2]
    rfl
  refine ⟨hden, ?_⟩
  intro g dv fe tx hv
  have hvalid : dayValid v tr = true := by
    unfold dayValid
    rw [hden, h2, hv]
    rfl
  unfold dayRowYields
  rw [hvalid, hden]
  simp

/-- Witness for C1: the spec's concrete row (value 1000, transaction 800,
gains 80) selects denominator 800 and yields price-yield 1/10, not 8/100. -/
theorem c1_denominator_switch_witness :
    dayDenominator (F.fin 1000) (F.fin 800) = F.abs (F.fin 800) ∧
    F.abs (F.fin 800) = F.fin 800 ∧
    (dayRowYields (F.fin 1000) (F.fin 80) (F.fin 0) (F.fin 0) (F.fin 0) (F.fin 800)).price
      = F.fin (1 / 10) ∧
    F.fin (1 / 10) ≠ F.fin (8 / 100) := by
  have habs : F.abs (F.fin 800) = F.fin 800 := by
    rw [F.abs_fin]
    norm_num
  have hb1 : F.blt (F.mul (F.fin 1000) (F.fin (1 / 2))) (F.abs (F.fin 800)) = true := by
    rw [F.mul_fin, F.abs_fin, F.blt_fin, decide_eq_true_eq]
    norm_num
  have hb2 : F.blt (F.fin 0) (F.abs (F.fin 800)) = true := by
    rw [F.abs_fin, F.blt_fin, decide_eq_true_eq]
    norm_num
  have hv : F.blt (F.fin 0) (F.fin 1000) = true := by
    rw [F.blt_fin, decide_eq_true_eq]
    norm_num
  have h := c1_denominator_switch (F.fin 1000) (F.fin 800) hb1 hb2
  refine ⟨h.1, habs, ?_, ?_⟩
  · rw [h.2 (F.fin 80) (F.fin 0) (F.fin 0) (F.fin 0) hv]
    show F.div (F.fin 80) (F.abs (F.fin 800)) = F.fin (1 / 10)
    rw [habs, F.div_fin 80 800 (by norm_num)]
    congr 1
    norm_num
  · intro hcontra
    have := F.fin.inj hcontra
    norm_num at this

/-- **C3**: in every row of the daily yield-decomposition output, the total
yield equals price + dividends + fees + taxes exactly. -/
theorem c3_total_sum_of_parts (values gains divs fees taxes trans : List (DKey × F))
    (out : List (DKey × DayYields))
    (hok : yield_components_day values gains divs fees taxes trans = .ok out) :
    ∀ r ∈ out,
      r.2.total = F.add (F.add (F.add r.2.price r.2.dividends) r.2.fees) r.2.taxes := by
  intro r hr
  rw [yield_components_day_ok hok] at hr
  unfold dayComputedRows at hr
  obtain ⟨a, _, rfl⟩ := List.mem_map.mp hr
  exact dayRowYields_total _ _ _ _ _ _

/-- Witness for C3: a concrete run (value 4, gains 2) returns a row with
price-yield 1/2 and total 1/2, and the sum-of-parts identity holds on it. -/
theorem c3_total_sum_of_parts_witness :
    ((((⟨1, 1⟩ : Date), "X1"),
        (⟨F.fin (1 / 2), F.fin 0, F.fin 0, F.fin 0, F.fin (1 / 2)⟩ : DayYields)) :
      DKey × DayYields).2.total =
      F.add (F.add (F.add (F.fin (1 / 2)) (F.fin 0)) (F.fin 0)) (F.fin 0) := by
  have h := c3_total_sum_of_parts
    [(((⟨1, 1⟩ : Date), "X1"), F.fin 4)]
    [(((⟨1, 1⟩ : Date), "X1"), F.fin 2)] [] [] [] []
    [(((⟨1, 1⟩ : Date), "X1"),
      (⟨F.fin (1 / 2), F.fin 0, F.fin 0, F.fin 0, F.fin (1 / 2)⟩ : DayYields))]
    (by with_unfolding_all rfl)
  exact h _ (List.mem_singleton_self _)

/-- **C4**: every output row whose position value is zero, or whose selected
denominator is zero, carries exactly-zero yield components (not NaN or
infinite — the all-zero `DayYields` record holds finite zeros only). -/
theorem c4_zero_value_zero_yields (values gains divs fees taxes trans : List (DKey × F))
    (out : List (DKey × DayYields))
    (hok : yield_components_day values gains divs fees taxes trans = .ok out)
    (hnd : (values.map Prod.fst).Nodup) :
    ∀ k y, (k, y) ∈ out → ∀ v, (k, v) ∈ values →
      (v = F.fin 0 ∨ dayDenominator v (joinFillF (trans.filter noCashRow) k) = F.fin 0) →
      y = ⟨F.fin 0, F.fin 0, F.fin 0, F.fin 0, F.fin 0⟩ := by
  intro k y hy v hv hzero
  rw [yield_components_day_ok hok] at hy
  unfold dayComputedRows at hy
  obtain ⟨a, ha, heq⟩ := List.mem_map.mp hy
  rw [Prod.mk.injEq] at heq
  obtain ⟨heqk, heqy⟩ := heq
  have hmemv : (k, a.2) ∈ values := by
    have := List.mem_of_mem_filter ha
    rwa [(Prod.ext heqk rfl : a = (k, a.2))] at this
  have hva : a.2 = v := mem_unique_of_nodup_keys hnd hmemv hv
  rw [← heqy, heqk, hva]
  exact dayRowYields_zero _ _ _ _ _ _ hzero

/-- Witness for C4: a concrete run with value 0 and nonzero gains yields the
all-zero row. -/
theorem c4_zero_value_zero_yields_witness :
    (⟨F.fin 0, F.fin 0, F.fin 0, F.fin 0, F.fin 0⟩ : DayYields)
      = ⟨F.fin 0, F.fin 0, F.fin 0, F.fin 0, F.fin 0⟩ :=
  c4_zero_value_zero_yields
    [(((⟨1, 1⟩ : Date), "X1"), F.fin 0)]
    [(((⟨1, 1⟩ : Date), "X1"), F.fin 5)] [] [] [] []
    [(((⟨1, 1⟩ : Date), "X1"),
      (⟨F.fin 0, F.fin 0, F.fin 0, F.fin 0, F.fin 0⟩ : DayYields))]
    (by with_unfolding_all rfl) (by decide)
    ((⟨1, 1⟩ : Date), "X1") ⟨F.fin 0, F.fin 0, F.fin 0, F.fin 0, F.fin 0⟩
    (List.mem_singleton_self _) (F.fin 0) (List.mem_singleton_self _) (Or.inl rfl)

/-- **C5**: whenever any computed yield component of any row is infinite,
the daily yield decomposition returns an error instead of a result. -/
theorem c5_infinite_aborts (values gains divs fees taxes trans : List (DKey × F))
    (hinf : ∃ r ∈ dayComputedRows values gains divs fees taxes trans, r.2.hasInf = true) :
    ∃ msg, yield_components_day values gains divs fees taxes trans = .error msg := by
  unfold yield_components_day
  by_cases h1 : values.isEmpty
  · exact ⟨_, by rw [if_pos h1]⟩
  · by_cases h2 : gains.isEmpty
    · exact ⟨_, by rw [if_neg h1, if_pos h2]⟩
    · have hany : (dayComputedRows values gains divs fees taxes trans).any
          (fun r => r.2.hasInf) = true := by
        obtain ⟨r, hr, hI⟩ := hinf
        exact List.any_eq_true.mpr ⟨r, hr, hI⟩
      exact ⟨_, by rw [if_neg h1, if_neg h2, if_pos hany]⟩

/-- Witness for C5: a run whose gains entry is +inf (with value 1) computes
an infinite price yield, and the function returns an error. -/
theorem c5_infinite_aborts_witness :
    ∃ msg, yield_components_day
      [(((⟨1, 1⟩ : Date), "X1"), F.fin 1)]
      [(((⟨1, 1⟩ : Date), "X1"), F.inf)] [] [] [] [] = .error msg :=
  c5_infinite_aborts
    [(((⟨1, 1⟩ : Date), "X1"), F.fin 1)]
    [(((⟨1, 1⟩ : Date), "X1"), F.inf)] [] [] [] []
    ⟨(((⟨1, 1⟩ : Date), "X1"),
        (⟨F.inf, F.fin 0, F.fin 0, F.fin 0, F.inf⟩ : DayYields)),
      by with_unfolding_all decide, rfl⟩

/-! ### Date order and lookup lemmas -/

/-- Date order is reflexive. -/
lemma Date.le_refl (a : Date) : Date.le a a := Or.inr ⟨rfl, Nat.le_refl _⟩

/-- Date order is transitive. -/
lemma Date.le_trans {a b c : Date} (h1 : Date.le a b) (h2 : Date.le b c) : Date.le a c := by
  unfold Date.le at *
  omega

/-- Date order is antisymmetric. -/
lemma Date.le_antisymm' {a b : Date} (h1 : Date.le a b) (h2 : Date.le b a) : a = b := by
  obtain ⟨ya, da⟩ := a
  obtain ⟨yb, db⟩ := b
  unfold Date.le at h1 h2
  dsimp only at h1 h2
  rw [Date.mk.injEq]
  omega

/-- Boolean and propositional date order agree. -/
lemma Date.ble_iff {a b : Date} : Date.ble a b = true ↔ Date.le a b := by
  unfold Date.ble
  rw [decide_eq_true_eq]

/-- No strict reversal of a date inequality. -/
lemma Date.not_blt_of_le {a b : Date} (h : Date.le a b) : Date.blt b a = false := by
  unfold Date.blt
  rw [decide_eq_false_iff_not]
  unfold Date.le at h
  omega

/-- Strict boolean order from a non-strict one and distinctness. -/
lemma Date.blt_of_le_ne {a b : Date} (h : Date.le a b) (hne : a ≠ b) :
    Date.blt a b = true := by
  obtain ⟨ya, da⟩ := a
  obtain ⟨yb, db⟩ := b
  unfold Date.blt
  rw [decide_eq_true_eq]
  unfold Date.le at h
  rw [Ne, Date.mk.injEq] at hne
  dsimp only at h ⊢
  omega

/-- Totality in the form needed for `dmax`. -/
lemma Date.le_of_not_ble {a b : Date} (h : ¬ Date.ble a b = true) : Date.le b a := by
  unfold Date.ble at h
  rw [decide_eq_true_eq] at h
  unfold Date.le at *
  omega

/-- `dmax` dominates its left argument. -/
lemma dmax_le_left (a b : Date) : Date.le a (dmax a b) := by
  unfold dmax
  by_cases h : Date.ble a b = true
  · rw [if_pos h]
    exact Date.ble_iff.mp h
  · rw [if_neg h]
    exact Date.le_refl a

/-- `dmax` dominates its right argument. -/
lemma dmax_le_right (a b : Date) : Date.le b (dmax a b) := by
  unfold dmax
  by_cases h : Date.ble a b = true
  · rw [if_pos h]
    exact Date.le_refl b
  · rw [if_neg h]
    exact Date.le_of_not_ble h

/-- `dmax` picks one of its arguments. -/
lemma dmax_mem (a b : Date) : dmax a b = a ∨ dmax a b = b := by
  unfold dmax
  by_cases h : Date.ble a b = true
  · rw [if_pos h]; exact Or.inr rfl
  · rw [if_neg h]; exact Or.inl rfl

/-- `dmax` of an ordered pair is the larger one. -/
lemma dmax_eq_right {a b : Date} (h : Date.le a b) : dmax a b = b := by
  unfold dmax
  rw [if_pos (Date.ble_iff.mpr h)]

/-- The fold of `dmax` lands in the folded list (with its start). -/
lemma foldl_dmax_mem : ∀ (ds : List Date) (d0 : Date), ds.foldl dmax d0 ∈ d0 :: ds
  | [], d0 => List.mem_singleton_self _
  | d :: ds, d0 => by
      show (ds.foldl dmax (dmax d0 d)) ∈ d0 :: d :: ds
      have hmem := foldl_dmax_mem ds (dmax d0 d)
      rcases List.mem_cons.mp hmem with h | h
      · rcases dmax_mem d0 d with h2 | h2
        · rw [h, h2]; exact List.mem_cons_self _ _
        · rw [h, h2]; exact List.mem_cons_of_mem _ (List.mem_cons_self _ _)
      · exact List.mem_cons_of_mem _ (List.mem_cons_of_mem _ h)

/-- The fold of `dmax` is an upper bound of the folded list. -/
lemma foldl_dmax_ub : ∀ (ds : List Date) (d0 x : Date), x ∈ d0 :: ds →
    Date.le x (ds.foldl dmax d0)
  | [], d0, x, hx => by
      rw [List.mem_singleton] at hx
      subst hx
      exact Date.le_refl x
  | d :: ds, d0, x, hx => by
      show Date.le x (ds.foldl dmax (dmax d0 d))
      rcases List.mem_cons.mp hx with rfl | hx'
      · exact Date.le_trans (dmax_le_left x d)
          (foldl_dmax_ub ds (dmax x d) _ (List.mem_cons_self _ _))
      · rcases List.mem_cons.mp hx' with rfl | hx''
        · exact Date.le_trans (dmax_le_right d0 x)
            (foldl_dmax_ub ds (dmax d0 x) _ (List.mem_cons_self _ _))
        · exact foldl_dmax_ub ds (dmax d0 d) x (List.mem_cons_of_mem _ hx'')

/-- Two `dmax` folds over lists with the same members coincide. -/
lemma foldl_dmax_eq_of_mem_iff {d0 d1 : Date} {ds ds' : List Date}
    (hmem : ∀ x, x ∈ d0 :: ds ↔ x ∈ d1 :: ds') :
    ds.foldl dmax d0 = ds'.foldl dmax d1 :=
  Date.le_antisymm'
    (foldl_dmax_ub ds' d1 _ ((hmem _).mp (foldl_dmax_mem ds d0)))
    (foldl_dmax_ub ds d0 _ ((hmem _).mpr (foldl_dmax_mem ds' d1)))

/-- An association-list lookup misses exactly the absent keys. -/
lemma alookup_eq_none {α β : Type} [DecidableEq α] :
    ∀ (l : List (α × β)) (k : α), alookup l k = none ↔ k ∉ l.map Prod.fst
  | [], k => by
      constructor
      · intro _ h; cases h
      · intro _; rfl
  | (a, b) :: t, k => by
      show (if a = k then some b else alookup t k) = none ↔ _
      rw [List.map_cons, List.mem_cons]
      by_cases hak : a = k
      · rw [if_pos hak]
        constructor
        · intro h; exact Option.noConfusion h
        · intro h; exact absurd (Or.inl hak.symm) h
      · rw [if_neg hak, alookup_eq_none t k]
        constructor
        · intro h hmem
          rcases hmem with h2 | h2
          · exact hak h2.symm
          · exact h h2
        · intro h h2
          exact h (Or.inr h2)

/-- A successful lookup is a member. -/
lemma mem_of_alookup_eq_some {α β : Type} [DecidableEq α] :
    ∀ {l : List (α × β)} {k : α} {v : β}, alookup l k = some v → (k, v) ∈ l := by
  intro l
  induction l with
  | nil => intro k v h; cases h
  | cons x t ih =>
      intro k v h
      obtain ⟨a, b⟩ := x
      rw [show alookup ((a, b) :: t) k = if a = k then some b else alookup t k from rfl] at h
      by_cases hak : a = k
      · rw [if_pos hak] at h
        injection h with hv
        subst hak
        subst hv
        exact List.mem_cons_self _ _
      · rw [if_neg hak] at h
        exact List.mem_cons_of_mem _ (ih h)

/-- With duplicate-free keys, members are found by lookup. -/
lemma alookup_eq_some_of_mem {α β : Type} [DecidableEq α] :
    ∀ {l : List (α × β)}, (l.map Prod.fst).Nodup →
    ∀ {k : α} {v : β}, (k, v) ∈ l → alookup l k = some v := by
  intro l
  induction l with
  | nil => intro _ k v h; cases h
  | cons x t ih =>
      intro hnd k v h
      obtain ⟨a, b⟩ := x
      rw [List.map_cons, List.nodup_cons] at hnd
      show (if a = k then some b else alookup t k) = some v
      rcases List.mem_cons.mp h with heq | hmem
      · injection heq with h1 h2
        rw [if_pos h1.symm, h2]
      · by_cases hak : a = k
        · exfalso
          have : k ∈ t.map Prod.fst := List.mem_map_of_mem Prod.fst hmem
          rw [← hak] at this
          exact hnd.1 this
        · rw [if_neg hak]
          exact ih hnd.2 hmem

/-- Lookup is invariant under permutation when keys are duplicate-free. -/
lemma alookup_perm {α β : Type} [DecidableEq α] {l l' : List (α × β)} (hperm : l.Perm l')
    (hnd : (l.map Prod.fst).Nodup) (k : α) : alookup l k = alookup l' k := by
  have hnd' : (l'.map Prod.fst).Nodup := ((hperm.map Prod.fst).nodup_iff).mp hnd
  cases h : alookup l k with
  | none =>
      rw [alookup_eq_none] at h
      have : k ∉ l'.map Prod.fst := fun hm => h (((hperm.map Prod.fst).mem_iff).mpr hm)
      exact ((alookup_eq_none l' k).mpr this).symm
  | some v =>
      exact (alookup_eq_some_of_mem hnd' (hperm.subset (mem_of_alookup_eq_some h))).symm

/-! ### Lemmas about the annual pipeline and cash exclusion -/

/-- A successful run of `yield_components_year` returns the grouped rows. -/
lemma yield_components_year_ok {yc : List (DKey × DayYields)} {values : List (DKey × F)}
    {out : List (DKey × AnnYields)}
    (hok : yield_components_year yc values = .ok out) :
    out = yearGrouped (yearFiltered yc values) := by
  unfold yield_components_year at hok
  by_cases h1 : yc.isEmpty
  · rw [if_pos h1] at hok; exact Except.noConfusion hok
  · rw [if_neg h1] at hok
    by_cases h2 : values.isEmpty
    · rw [if_pos h2] at hok; exact Except.noConfusion hok
    · rw [if_neg h2] at hok
      by_cases h3 : (yearFiltered yc values).isEmpty
      · rw [if_pos h3] at hok; exact Except.noConfusion hok
      · rw [if_neg h3] at hok
        exact (Except.ok.inj hok).symm

/-- A successful run of `profitability_year_table` returns the combined
rows and their pivoted columns. -/
lemma profitability_year_table_ok {yc : List (DKey × DayYields)} {values : List (DKey × F)}
    {p : ProfitOut} (hok : profitability_year_table yc values = .ok p) :
    p = ⟨profitCombined yc values, profitColumns (profitCombined yc values)⟩ := by
  unfold profitability_year_table at hok
  by_cases h1 : yc.isEmpty
  · rw [if_pos h1] at hok; exact Except.noConfusion hok
  · rw [if_neg h1] at hok
    by_cases h2 : values.isEmpty
    · rw [if_pos h2] at hok; exact Except.noConfusion hok
    · rw [if_neg h2] at hok
      by_cases h3 : (yearFiltered (yc.filter noCashRow) values).isEmpty
      · rw [if_pos h3] at hok; exact Except.noConfusion hok
      · rw [if_neg h3] at hok
        exact (Except.ok.inj hok).symm

/-- Joined rows come from daily-yield rows whose key has a present value. -/
lemma mem_yearJoined {yc : List (DKey × DayYields)} {values : List (DKey × F)} {jr : JRow}
    (h : jr ∈ yearJoined yc values) :
    ∃ r ∈ yc, jr.date = r.1.1 ∧ jr.wkn = r.1.2 ∧ jr.ys = r.2 ∧
      alookup values r.1 = some jr.v := by
  unfold yearJoined at h
  rw [List.mem_filterMap] at h
  obtain ⟨r, hr, hopt⟩ := h
  cases halo : alookup values r.1 with
  | none => rw [halo] at hopt; exact Option.noConfusion hopt
  | some v =>
      rw [halo] at hopt
      rw [Option.map_some'] at hopt
      injection hopt with hjr
      subst hjr
      exact ⟨r, hr, rfl, rfl, rfl, halo⟩

/-- Every key of the grouping step carries the wkn of some input row. -/
lemma mem_yearGrouped_key {rows : List JRow} {k : DKey} {a : AnnYields}
    (h : (k, a) ∈ yearGrouped rows) : ∃ jr ∈ rows, k.2 = jr.wkn := by
  unfold yearGrouped at h
  obtain ⟨kk, hkk, heq⟩ := List.mem_map.mp h
  rw [Prod.mk.injEq] at heq
  obtain ⟨h1, _⟩ := heq
  subst h1
  unfold yearKeys at hkk
  rw [List.mem_dedup] at hkk
  obtain ⟨p, hp, heq2⟩ := List.mem_map.mp hkk
  unfold yearMerged at hp
  obtain ⟨r, hr, heq3⟩ := List.mem_map.mp hp
  refine ⟨r, hr, ?_⟩
  rw [← heq2, ← heq3]

/-- The case-insensitive cash test excludes the instrument `"cash"`. -/
lemma ne_cash_of_toLower {w : String} (h : w.toLower ≠ "cash") : w ≠ "cash" := by
  intro hc
  subst hc
  exact h (by with_unfolding_all decide)

/-- Rows of the daily yield output never carry a cash wkn. -/
lemma day_out_toLower_ne {values gains divs fees taxes trans : List (DKey × F)}
    {out : List (DKey × DayYields)}
    (hok : yield_components_day values gains divs fees taxes trans = .ok out) :
    ∀ r ∈ out, r.1.2.toLower ≠ "cash" := by
  intro r hr
  rw [yield_components_day_ok hok] at hr
  unfold dayComputedRows at hr
  obtain ⟨a, ha, heq⟩ := List.mem_map.mp hr
  obtain ⟨_, hpred⟩ := List.mem_filter.mp ha
  rw [← heq]
  exact of_decide_eq_true hpred

/-- **C8**: the instrument `"cash"` never appears in the daily
yield-component output, nor in the annual yield-component output computed
from it (whatever valuation table is used there), nor among the rows of the
year-by-instrument profitability table — whatever the inputs contain. -/
theorem c8_cash_never_in_outputs :
    (∀ values gains divs fees taxes trans out,
        yield_components_day values gains divs fees taxes trans = Except.ok out →
        ∀ r ∈ out, r.1.2 ≠ "cash") ∧
    (∀ values gains divs fees taxes trans values2 out yout,
        yield_components_day values gains divs fees taxes trans = Except.ok out →
        yield_components_year out values2 = Except.ok yout →
        ∀ r ∈ yout, r.1.2 ≠ "cash") ∧
    (∀ yc values p, profitability_year_table yc values = Except.ok p →
        ∀ row ∈ p.rows, row.2.1 ≠ "cash") := by
  refine ⟨?_, ?_, ?_⟩
  · intro values gains divs fees taxes trans out hok r hr
    exact ne_cash_of_toLower (day_out_toLower_ne hok r hr)
  · intro values gains divs fees taxes trans values2 out yout hok hok2 r hr
    obtain ⟨k, a⟩ := r
    rw [yield_components_year_ok hok2] at hr
    obtain ⟨jr, hjr, hwkn⟩ := mem_yearGrouped_key hr
    obtain ⟨row, hrow, _, hw, _, _⟩ := mem_yearJoined (List.mem_filter.mp hjr).1
    show k.2 ≠ "cash"
    rw [hwkn, hw]
    exact ne_cash_of_toLower (day_out_toLower_ne hok row hrow)
  · intro yc values p hok row hrow
    rw [profitability_year_table_ok hok] at hrow
    unfold profitCombined at hrow
    obtain ⟨k, hk, heq⟩ := List.mem_map.mp hrow
    rw [List.mem_dedup] at hk
    obtain ⟨jr, hjr, heq2⟩ := List.mem_map.mp hk
    obtain ⟨r0, hr0, _, hw, _, _⟩ := mem_yearJoined (List.mem_filter.mp hjr).1
    have hpred := (List.mem_filter.mp hr0).2
    rw [← heq]
    show k.2 ≠ "cash"
    rw [← heq2]
    show jr.wkn ≠ "cash"
    rw [hw]
    exact ne_cash_of_toLower (of_decide_eq_true hpred)

/-- Witness for C8: a run whose valuation, gain and daily-yield inputs all
contain a `"cash"` row keeps `"cash"` out of the daily, annual and
profitability outputs (the only surviving instrument is `"X1"`). -/
theorem c8_cash_never_in_outputs_witness :
    ("X1" : String) ≠ "cash" ∧ ("X1" : String) ≠ "cash" ∧ ("X1" : String) ≠ "cash" := by
  have h := c8_cash_never_in_outputs
  refine ⟨?_, ?_, ?_⟩
  · exact h.1
      [(((⟨1, 1⟩ : Date), "cash"), F.fin 3), (((⟨1, 1⟩ : Date), "X1"), F.fin 4)]
      [(((⟨1, 1⟩ : Date), "X1"), F.fin 2)] [] [] [] []
      [(((⟨1, 1⟩ : Date), "X1"),
        (⟨F.fin (1 / 2), F.fin 0, F.fin 0, F.fin 0, F.fin (1 / 2)⟩ : DayYields))]
      (by with_unfolding_all rfl) _ (List.mem_singleton_self _)
  · exact h.2.1
      [(((⟨1, 1⟩ : Date), "cash"), F.fin 3), (((⟨1, 1⟩ : Date), "X1"), F.fin 4)]
      [(((⟨1, 1⟩ : Date), "X1"), F.fin 2)] [] [] [] []
      [(((⟨1, 1⟩ : Date), "X1"), F.fin 4), (((⟨1, 1⟩ : Date), "cash"), F.fin 3)]
      [(((⟨1, 1⟩ : Date), "X1"),
        (⟨F.fin (1 / 2), F.fin 0, F.fin 0, F.fin 0, F.fin (1 / 2)⟩ : DayYields))]
      [(((⟨1, 1⟩ : Date), "X1"),
        (⟨F.fin (1 / 2), F.fin 0, F.fin 0, F.fin 0, F.fin (1 / 2)⟩ : AnnYields))]
      (by with_unfolding_all rfl) (by with_unfolding_all rfl) _ (List.mem_singleton_self _)
  · exact h.2.2
      [(((⟨1, 1⟩ : Date), "cash"),
        (⟨F.fin (1 / 2), F.fin 0, F.fin 0, F.fin 0, F.fin (1 / 2)⟩ : DayYields)),
       (((⟨1, 1⟩ : Date), "X1"),
        (⟨F.fin (1 / 2), F.fin 0, F.fin 0, F.fin 0, F.fin (1 / 2)⟩ : DayYields))]
      [(((⟨1, 1⟩ : Date), "X1"), F.fin 4), (((⟨1, 1⟩ : Date), "cash"), F.fin 3)]
      ⟨[(1, "X1", 1, F.fin (1 / 2))], ["X1_days", "X1_yield"]⟩
      (by with_unfolding_all rfl) _ (List.mem_singleton_self _)

/-! ### The gain/loss calculator's shift characterisation -/

/-- Unfolding membership in the earlier-observation dates. -/
lemma mem_prevCandDates {values : List (DKey × F)} {d x : Date} {w : String}
    (h : x ∈ prevCandDates values d w) :
    ∃ r ∈ values, r.1.2 = w ∧ r.1.1 = x ∧ Date.blt x d = true := by
  unfold prevCandDates at h
  obtain ⟨r, hr, heq⟩ := List.mem_map.mp h
  obtain ⟨hrv, hpred⟩ := List.mem_filter.mp hr
  rw [Bool.and_eq_true, decide_eq_true_eq] at hpred
  exact ⟨r, hrv, hpred.1, heq, heq ▸ hpred.2⟩

/-- Characterisation of the per-wkn shift on a date-sorted frame with
unique keys: looking up `(d, w)` in the shifted frame yields the row's own
value paired with the value at the latest earlier observation of `w` (the
accumulator's entry — for the top-level call, NaN — when there is none). -/
lemma shiftPrev_lookup :
    ∀ (l : List (DKey × F)) (seen : List (String × F)),
      l.Pairwise rowDateLe → (l.map Prod.fst).Nodup →
      ∀ (d : Date) (w : String),
        alookup (shiftPrev l seen) (d, w)
          = (alookup l (d, w)).map (fun v => (v,
              match prevCandDates l d w with
              | [] => (alookup seen w).getD F.nan
              | d0 :: ds => (alookup l (ds.foldl dmax d0, w)).getD F.nan))
  | [], _, _, _, _, _ => rfl
  | ((d0, w0), v0) :: t, seen, hsort, hnd, d, w => by
      rw [List.pairwise_cons] at hsort
      obtain ⟨hhead, htail⟩ := hsort
      rw [List.map_cons, List.nodup_cons] at hnd
      obtain ⟨hk0, hndt⟩ := hnd
      show alookup ((((d0, w0) : DKey), (v0, (alookup seen w0).getD F.nan)) ::
        shiftPrev t ((w0, v0) :: seen)) (d, w) = _
      by_cases hk : ((d0, w0) : DKey) = (d, w)
      · injection hk with hd0 hw0
        subst hd0
        subst hw0
        have hpc : prevCandDates (((d0, w0), v0) :: t) d0 w0 = [] := by
          unfold prevCandDates
          rw [List.filter_cons_of_neg (by
            rw [Bool.and_eq_true, not_and]
            intro _
            rw [Date.not_blt_of_le (Date.le_refl d0)]
            exact Bool.false_ne_true)]
          rw [List.filter_eq_nil_iff.mpr, List.map_nil]
          intro r hr hpred
          rw [Bool.and_eq_true, decide_eq_true_eq] at hpred
          have hle : Date.le d0 r.1.1 := hhead r hr
          rw [Date.not_blt_of_le hle] at hpred
          exact Bool.false_ne_true hpred.2
        rw [hpc]
        show (if ((d0, w0) : DKey) = (d0, w0) then
            some (v0, (alookup seen w0).getD F.nan) else _) = _
        rw [if_pos rfl]
        show _ = (if ((d0, w0) : DKey) = (d0, w0) then some v0 else _).map _
        rw [if_pos rfl]
        rfl
      · show (if ((d0, w0) : DKey) = (d, w) then _ else
            alookup (shiftPrev t ((w0, v0) :: seen)) (d, w)) = _
        rw [if_neg hk, shiftPrev_lookup t ((w0, v0) :: seen) htail hndt d w]
        have hlook : alookup ((((d0, w0) : DKey), v0) :: t) (d, w) = alookup t (d, w) := by
          show (if ((d0, w0) : DKey) = (d, w) then some v0 else alookup t (d, w)) = _
          rw [if_neg hk]
        rw [hlook]
        cases halo : alookup t (d, w) with
        | none => rfl
        | some v =>
            rw [Option.map_some', Option.map_some', Option.some.injEq, Prod.mk.injEq]
            refine ⟨rfl, ?_⟩
            have hmem : (((d, w) : DKey), v) ∈ t := mem_of_alookup_eq_some halo
            by_cases hw : w0 = w
            · subst hw
              have hd0d : d0 ≠ d := by
                intro he
                exact hk (by rw [he])
              have hblt : Date.blt d0 d = true :=
                Date.blt_of_le_ne (hhead _ hmem) hd0d
              have hcons : prevCandDates ((((d0, w0) : DKey), v0) :: t) d w0
                  = d0 :: prevCandDates t d w0 := by
                unfold prevCandDates
                rw [List.filter_cons_of_pos (by
                  rw [Bool.and_eq_true, decide_eq_true_eq]
                  exact ⟨rfl, hblt⟩), List.map_cons]
              rw [hcons]
              cases hpc : prevCandDates t d w0 with
              | nil =>
                  dsimp only [List.foldl]
                  show ((if w0 = w0 then some v0 else alookup seen w0)).getD F.nan
                    = ((if ((d0, w0) : DKey) = (d0, w0) then some v0
                        else alookup t (d0, w0))).getD F.nan
                  rw [if_pos rfl, if_pos rfl]
              | cons d1 ds' =>
                  have hd1mem : d1 ∈ prevCandDates t d w0 := by
                    rw [hpc]; exact List.mem_cons_self _ _
                  obtain ⟨r1, hr1, hrw, hrd, _⟩ := mem_prevCandDates hd1mem
                  have hled1 : Date.le d0 d1 := hrd ▸ hhead r1 hr1
                  have hm := foldl_dmax_mem ds' d1
                  rw [← hpc] at hm
                  obtain ⟨r2, hr2, hrw2, hrd2, _⟩ := mem_prevCandDates hm
                  have hmne : ((d0, w0) : DKey) ≠ (ds'.foldl dmax d1, w0) := by
                    intro he
                    injection he with he1 _
                    apply hk0
                    have hre : r2.1 = ((d0, w0) : DKey) := by
                      rw [Prod.ext_iff]
                      exact ⟨hrd2.trans he1.symm, hrw2⟩
                    have hmm : r2.1 ∈ t.map Prod.fst := List.mem_map_of_mem Prod.fst hr2
                    rw [hre] at hmm
                    exact hmm
                  dsimp only
                  have hfold : List.foldl dmax d0 (d1 :: ds') = ds'.foldl dmax d1 := by
                    show ds'.foldl dmax (dmax d0 d1) = _
                    rw [dmax_eq_right hled1]
                  rw [hfold]
                  rw [show alookup ((((d0, w0) : DKey), v0) :: t) (ds'.foldl dmax d1, w0)
                    = alookup t (ds'.foldl dmax d1, w0) from by
                      show (if ((d0, w0) : DKey) = (ds'.foldl dmax d1, w0) then some v0
                        else _) = _
                      rw [if_neg hmne]]
            · have hsame : prevCandDates ((((d0, w0) : DKey), v0) :: t) d w
                  = prevCandDates t d w := by
                unfold prevCandDates
                rw [List.filter_cons_of_neg (by
                  rw [Bool.and_eq_true, not_and]
                  intro hww
                  rw [decide_eq_true_eq] at hww
                  exact absurd hww hw)]
              rw [hsame]
              cases hpc : prevCandDates t d w with
              | nil =>
                  dsimp only
                  show ((if w0 = w then some v0 else alookup seen w)).getD F.nan
                    = (alookup seen w).getD F.nan
                  rw [if_neg hw]
              | cons d1 ds' =>
                  dsimp only
                  rw [show alookup ((((d0, w0) : DKey), v0) :: t) (ds'.foldl dmax d1, w)
                    = alookup t (ds'.foldl dmax d1, w) from by
                      show (if ((d0, w0) : DKey) = (ds'.foldl dmax d1, w) then some v0
                        else _) = _
                      rw [if_neg (by
                        intro he
                        injection he with _ he2
                        exact hw he2)]]

/-- **C6**: every (date, instrument) row of the daily gain/loss output
equals value(date) − value(previous observed date of that instrument under
chronological sort) + transaction_value(date); a first observation's
previous value and every absent term default to zero (via NaN-fill). -/
theorem c6_gains_formula (values txs : List (DKey × F))
    (hndv : (values.map Prod.fst).Nodup) :
    gains_losses_before_fees_taxes_day values txs
      = (gldKeys values txs).map (fun k =>
          (k, F.add
            (F.sub (F.fillna0 ((alookup values k).getD F.nan))
              (F.fillna0 (if (alookup values k).isSome
                then prevValueSpec values k.1 k.2 else F.nan)))
            (F.fillna0 ((alookup txs k).getD F.nan)))) := by
  have hperm : (values.insertionSort rowDateLe).Perm values :=
    List.perm_insertionSort rowDateLe values
  have hnds : ((values.insertionSort rowDateLe).map Prod.fst).Nodup :=
    ((hperm.map Prod.fst).nodup_iff).mpr hndv
  have hsort : (values.insertionSort rowDateLe).Pairwise rowDateLe :=
    List.sorted_insertionSort rowDateLe values
  have hlook : ∀ k : DKey, alookup (values.insertionSort rowDateLe) k = alookup values k :=
    fun k => alookup_perm hperm hnds k
  unfold gains_losses_before_fees_taxes_day
  refine List.map_congr_left ?_
  intro k _
  obtain ⟨kd, kw⟩ := k
  rw [Prod.mk.injEq]
  refine ⟨rfl, ?_⟩
  rw [shiftPrev_lookup _ [] hsort hnds kd kw, hlook ((kd, kw) : DKey)]
  have hpermc : (prevCandDates (values.insertionSort rowDateLe) kd kw).Perm
      (prevCandDates values kd kw) := by
    unfold prevCandDates
    exact (hperm.filter _).map _
  cases halo : alookup values ((kd, kw) : DKey) with
  | none => rfl
  | some v =>
      rw [Option.map_some', Option.map_some', Option.getD_some, Option.isSome_some,
        if_pos rfl]
      congr 1
      unfold prevValueSpec
      cases hc : prevCandDates values kd kw with
      | nil =>
          have hc2 : prevCandDates (values.insertionSort rowDateLe) kd kw = [] := by
            rw [hc] at hpermc
            exact hpermc.eq_nil
          rw [hc2]
          rfl
      | cons c0 cs =>
          cases hc2 : prevCandDates (values.insertionSort rowDateLe) kd kw with
          | nil =>
              rw [hc2, hc] at hpermc
              exact absurd hpermc.symm.eq_nil (List.cons_ne_nil c0 cs)
          | cons e0 es =>
              dsimp only
              have hmemiff : ∀ x, x ∈ e0 :: es ↔ x ∈ c0 :: cs := by
                intro x
                rw [← hc2, ← hc]
                exact hpermc.mem_iff
              rw [foldl_dmax_eq_of_mem_iff hmemiff, hlook]
              rfl

/-- Witness for C6: with observations 10 then 15 for instrument "A" and a
transaction of 3 on the second day, the second day's gain/loss is
15 − 10 + 3 = 8. -/
theorem c6_gains_formula_witness :
    alookup (gains_losses_before_fees_taxes_day
      [(((⟨1, 1⟩ : Date), "A"), F.fin 10), (((⟨1, 2⟩ : Date), "A"), F.fin 15)]
      [(((⟨1, 2⟩ : Date), "A"), F.fin 3)]) ((⟨1, 2⟩ : Date), "A") = some (F.fin 8) := by
  rw [c6_gains_formula
    [(((⟨1, 1⟩ : Date), "A"), F.fin 10), (((⟨1, 2⟩ : Date), "A"), F.fin 15)]
    [(((⟨1, 2⟩ : Date), "A"), F.fin 3)] (by decide)]
  with_unfolding_all decide

/-! ### The annual TWR characterisation -/

/-- The last date of a nonempty (year, wkn) group is one of the group's
dates and bounds them all. -/
lemma lastDateIn_spec (rows : List JRow) (y : ℕ) (w : String)
    (h : rows.filter (fun r => decide (r.date.year = y ∧ r.wkn = w)) ≠ []) :
    (lastDateIn rows y w ∈ (rows.filter
        (fun r => decide (r.date.year = y ∧ r.wkn = w))).map (fun r => r.date)) ∧
    (∀ r ∈ rows.filter (fun r => decide (r.date.year = y ∧ r.wkn = w)),
      Date.le r.date (lastDateIn rows y w)) := by
  unfold lastDateIn
  cases hm : (rows.filter (fun r => decide (r.date.year = y ∧ r.wkn = w))).map
      (fun r => r.date) with
  | nil => exact absurd (List.map_eq_nil_iff.mp hm) h
  | cons d0 ds =>
      constructor
      · exact foldl_dmax_mem ds d0
      · intro r hr
        have hmem : r.date ∈ d0 :: ds := by
          rw [← hm]
          exact List.mem_map_of_mem _ hr
        exact foldl_dmax_ub ds d0 r.date hmem

/-- The last date of a nonempty (year, wkn) group lies in that year. -/
lemma lastDateIn_year (rows : List JRow) (y : ℕ) (w : String)
    (h : rows.filter (fun r => decide (r.date.year = y ∧ r.wkn = w)) ≠ []) :
    (lastDateIn rows y w).year = y := by
  obtain ⟨hmem, _⟩ := lastDateIn_spec rows y w h
  obtain ⟨r, hr, heq⟩ := List.mem_map.mp hmem
  have hpred := (List.mem_filter.mp hr).2
  rw [decide_eq_true_eq] at hpred
  rw [← heq]
  exact hpred.1

/-- **C2**: every row of the annual compounding output, keyed `(d, w)`, is
the per-component product `Π(1 + daily yield) − 1` over exactly the
positive-value daily rows of instrument `w` in year `d.year`, and `d` is
the last observed date of that group. -/
theorem c2_annual_twr (yc : List (DKey × DayYields)) (values : List (DKey × F))
    (out : List (DKey × AnnYields))
    (hok : yield_components_year yc values = .ok out) :
    ∀ d w a, ((d, w), a) ∈ out →
    ∀ G, G = (yearFiltered yc values).filter
        (fun r => decide (r.date.year = d.year ∧ r.wkn = w)) →
      G ≠ [] ∧ d ∈ G.map (fun r => r.date) ∧ (∀ r ∈ G, Date.le r.date d) ∧
      a = ⟨twr (G.map (fun r => r.ys.price)), twr (G.map (fun r => r.ys.dividends)),
           twr (G.map (fun r => r.ys.fees)), twr (G.map (fun r => r.ys.taxes)),
           twr (G.map (fun r => r.ys.total))⟩ := by
  intro d w a hmem G hG
  rw [yield_components_year_ok hok] at hmem
  unfold yearGrouped at hmem
  obtain ⟨k', hk', heq⟩ := List.mem_map.mp hmem
  rw [Prod.mk.injEq] at heq
  obtain ⟨hkeq, haeq⟩ := heq
  subst hkeq
  unfold yearKeys at hk'
  rw [List.mem_dedup] at hk'
  obtain ⟨p, hp, hpe⟩ := List.mem_map.mp hk'
  unfold yearMerged at hp
  obtain ⟨r0, hr0, hre⟩ := List.mem_map.mp hp
  subst hre
  dsimp only at hpe
  rw [Prod.mk.injEq] at hpe
  obtain ⟨hd, hw⟩ := hpe
  subst hw
  subst hG
  have hr0g : r0 ∈ (yearFiltered yc values).filter
      (fun r => decide (r.date.year = r0.date.year ∧ r.wkn = r0.wkn)) := by
    rw [List.mem_filter]
    refine ⟨hr0, ?_⟩
    rw [decide_eq_true_eq]
    exact ⟨rfl, rfl⟩
  have hne0 : (yearFiltered yc values).filter
      (fun r => decide (r.date.year = r0.date.year ∧ r.wkn = r0.wkn)) ≠ [] := by
    intro hnil
    rw [hnil] at hr0g
    cases hr0g
  have hyear : d.year = r0.date.year := by
    rw [← hd]
    exact lastDateIn_year (yearFiltered yc values) r0.date.year r0.wkn hne0
  have hspec := lastDateIn_spec (yearFiltered yc values) r0.date.year r0.wkn hne0
  refine ⟨?_, ?_, ?_, ?_⟩
  · rw [hyear]
    exact hne0
  · rw [hyear, ← hd]
    exact hspec.1
  · intro r hr
    rw [hyear] at hr
    rw [← hd]
    exact hspec.2 r hr
  · rw [← haeq]
    have hgroup : yearGroupOf (yearFiltered yc values) ((d, r0.wkn) : DKey)
        = ((yearFiltered yc values).filter
            (fun r => decide (r.date.year = d.year ∧ r.wkn = r0.wkn))).map
          (fun r => (r, lastDateIn (yearFiltered yc values) r.date.year r.wkn)) := by
      unfold yearGroupOf yearMerged
      rw [List.filter_map]
      congr 1
      refine List.filter_congr ?_
      intro r hrr
      rw [Function.comp_apply]
      rw [decide_eq_decide]
      dsimp only
      constructor
      · rintro ⟨hlast, hwr⟩
        refine ⟨?_, hwr⟩
        have hrg : r ∈ (yearFiltered yc values).filter
            (fun r' => decide (r'.date.year = r.date.year ∧ r'.wkn = r.wkn)) := by
          rw [List.mem_filter]
          refine ⟨hrr, ?_⟩
          rw [decide_eq_true_eq]
          exact ⟨rfl, rfl⟩
        have hgne : (yearFiltered yc values).filter
            (fun r' => decide (r'.date.year = r.date.year ∧ r'.wkn = r.wkn)) ≠ [] := by
          intro hnil
          rw [hnil] at hrg
          cases hrg
        rw [← hlast]
        exact (lastDateIn_year (yearFiltered yc values) r.date.year r.wkn hgne).symm
      · rintro ⟨hyr, hwr⟩
        refine ⟨?_, hwr⟩
        rw [hyr, hwr, hyear]
        exact hd
    rw [hgroup, List.map_map, List.map_map, List.map_map, List.map_map, List.map_map]
    rfl

/-- Witness for C2: one instrument held three days of one year with daily
total yields +1/2, −1/2, +1/4 compounds to (3/2)(1/2)(5/4) − 1 = −1/16 and
is keyed by the last day; and the spec's round-trip holds symbolically:
daily yields +1%, −1%, +2% compound to 1.01 · 0.99 · 1.02 − 1, which is not
the naive sum 2%. -/
theorem c2_annual_twr_witness :
    ((⟨F.fin (-(1 / 16)), F.fin 0, F.fin 0, F.fin 0, F.fin (-(1 / 16))⟩ : AnnYields)
      = ⟨twr (([(⟨⟨1, 1⟩, "A", ⟨F.fin (1 / 2), F.fin 0, F.fin 0, F.fin 0, F.fin (1 / 2)⟩,
                  F.fin 1⟩ : JRow),
               ⟨⟨1, 2⟩, "A", ⟨F.fin (-(1 / 2)), F.fin 0, F.fin 0, F.fin 0,
                  F.fin (-(1 / 2))⟩, F.fin 1⟩,
               ⟨⟨1, 3⟩, "A", ⟨F.fin (1 / 4), F.fin 0, F.fin 0, F.fin 0, F.fin (1 / 4)⟩,
                  F.fin 1⟩]).map (fun r => r.ys.price)),
         twr (([(⟨⟨1, 1⟩, "A", ⟨F.fin (1 / 2), F.fin 0, F.fin 0, F.fin 0, F.fin (1 / 2)⟩,
                  F.fin 1⟩ : JRow),
               ⟨⟨1, 2⟩, "A", ⟨F.fin (-(1 / 2)), F.fin 0, F.fin 0, F.fin 0,
                  F.fin (-(1 / 2))⟩, F.fin 1⟩,
               ⟨⟨1, 3⟩, "A", ⟨F.fin (1 / 4), F.fin 0, F.fin 0, F.fin 0, F.fin (1 / 4)⟩,
                  F.fin 1⟩]).map (fun r => r.ys.dividends)),
         twr (([(⟨⟨1, 1⟩, "A", ⟨F.fin (1 / 2), F.fin 0, F.fin 0, F.fin 0, F.fin (1 / 2)⟩,
                  F.fin 1⟩ : JRow),
               ⟨⟨1, 2⟩, "A", ⟨F.fin (-(1 / 2)), F.fin 0, F.fin 0, F.fin 0,
                  F.fin (-(1 / 2))⟩, F.fin 1⟩,
               ⟨⟨1, 3⟩, "A", ⟨F.fin (1 / 4), F.fin 0, F.fin 0, F.fin 0, F.fin (1 / 4)⟩,
                  F.fin 1⟩]).map (fun r => r.ys.fees)),
         twr (([(⟨⟨1, 1⟩, "A", ⟨F.fin (1 / 2), F.fin 0, F.fin 0, F.fin 0, F.fin (1 / 2)⟩,
                  F.fin 1⟩ : JRow),
               ⟨⟨1, 2⟩, "A", ⟨F.fin (-(1 / 2)), F.fin 0, F.fin 0, F.fin 0,
                  F.fin (-(1 / 2))⟩, F.fin 1⟩,
               ⟨⟨1, 3⟩, "A", ⟨F.fin (1 / 4), F.fin 0, F.fin 0, F.fin 0, F.fin (1 / 4)⟩,
                  F.fin 1⟩]).map (fun r => r.ys.taxes)),
         twr (([(⟨⟨1, 1⟩, "A", ⟨F.fin (1 / 2), F.fin 0, F.fin 0, F.fin 0, F.fin (1 / 2)⟩,
                  F.fin 1⟩ : JRow),
               ⟨⟨1, 2⟩, "A", ⟨F.fin (-(1 / 2)), F.fin 0, F.fin 0, F.fin 0,
                  F.fin (-(1 / 2))⟩, F.fin 1⟩,
               ⟨⟨1, 3⟩, "A", ⟨F.fin (1 / 4), F.fin 0, F.fin 0, F.fin 0, F.fin (1 / 4)⟩,
                  F.fin 1⟩]).map (fun r => r.ys.total))⟩) ∧
    twr [F.fin (1 / 100), F.fin (-(1 / 100)), F.fin (2 / 100)]
      = F.fin ((101 / 100) * (99 / 100) * (102 / 100) - 1) ∧
    F.fin ((101 / 100) * (99 / 100) * (102 / 100) - 1) ≠ F.fin (2 / 100) := by
  refine ⟨?_, ?_, ?_⟩
  · exact (c2_annual_twr
      [(((⟨1, 1⟩ : Date), "A"),
        (⟨F.fin (1 / 2), F.fin 0, F.fin 0, F.fin 0, F.fin (1 / 2)⟩ : DayYields)),
       (((⟨1, 2⟩ : Date), "A"),
        (⟨F.fin (-(1 / 2)), F.fin 0, F.fin 0, F.fin 0, F.fin (-(1 / 2))⟩ : DayYields)),
       (((⟨1, 3⟩ : Date), "A"),
        (⟨F.fin (1 / 4), F.fin 0, F.fin 0, F.fin 0, F.fin (1 / 4)⟩ : DayYields))]
      [(((⟨1, 1⟩ : Date), "A"), F.fin 1), (((⟨1, 2⟩ : Date), "A"), F.fin 1),
       (((⟨1, 3⟩ : Date), "A"), F.fin 1)]
      [(((⟨1, 3⟩ : Date), "A"),
        (⟨F.fin (-(1 / 16)), F.fin 0, F.fin 0, F.fin 0, F.fin (-(1 / 16))⟩ : AnnYields))]
      (by with_unfolding_all rfl) ⟨1, 3⟩ "A"
      ⟨F.fin (-(1 / 16)), F.fin 0, F.fin 0, F.fin 0, F.fin (-(1 / 16))⟩
      (List.mem_singleton_self _)
      [(⟨⟨1, 1⟩, "A", ⟨F.fin (1 / 2), F.fin 0, F.fin 0, F.fin 0, F.fin (1 / 2)⟩,
          F.fin 1⟩ : JRow),
       ⟨⟨1, 2⟩, "A", ⟨F.fin (-(1 / 2)), F.fin 0, F.fin 0, F.fin 0, F.fin (-(1 / 2))⟩,
          F.fin 1⟩,
       ⟨⟨1, 3⟩, "A", ⟨F.fin (1 / 4), F.fin 0, F.fin 0, F.fin 0, F.fin (1 / 4)⟩,
          F.fin 1⟩]
      (by with_unfolding_all rfl)).2.2.2
  · unfold twr
    dsimp only [List.foldl]
    simp only [F.add_fin, F.mul_fin, F.sub_fin]
    congr 1
    norm_num
  · intro hcontra
    have h2 := F.fin.inj hcontra
    norm_num at h2

end Depot
